import Mathlib

/-!
CachedFunction: a verification development of `FuncTest/cached_function.hpp`.

The header defines two overloads of `cached_function`, a memoizing call wrapper:

* `cached_function(functionPointer, argument)` keeps a function-local
  `static std::map<SoleArgType, ResultType>` and keys it by the bare argument;
* `cached_function(functionPointer, arguments...)` (two or more arguments) keeps a
  function-local `static std::map<std::tuple<ArgTypes...>, ResultType>` and keys it
  by the tuple of all arguments.

Embedding.

* `std::map<K, V>` is a list of entries kept strictly ascending under the key type's
  `operator<` (`StrictWeakOrder.less`); `find` and `operator[]` walk to the lower bound
  and compare there, as the ordered map does.
* A function-local `static` variable is a location in the program state (`Static`).
* A callable is a state transformer that returns a value or throws (`Callable`); it may
  have side effects on the program state, including nested calls of `cached_function`
  on the same instantiation (the recursive `fib` of the header comment does that).
* The order in which the operands of `cache[argument] = functionPointer(argument)` are
  evaluated is fixed by the language only since C++17 (right operand first); before, a
  compiler may as well evaluate `cache[argument]` first. `cached_function` and
  `cached_function_variadic` are the code under the C++17 order,
  `cached_function_operator_first` and `cached_function_variadic_operator_first` the code
  under the other order. The two orders agree on every call for a callable that returns and
  does not depend on the cache (`operator_first_eq`); they differ when the callable throws,
  where the other order leaves a value-initialised entry behind, and when it looks up the
  key of its own call.
-/

namespace CachedFunction

/-! ## Keys: the comparison the ordered map uses -/

/-- The `operator<` of a key type, as `std::map` requires it: a strict weak order. -/
class StrictWeakOrder (κ : Type) where
  less : κ → κ → Bool
  irrefl : ∀ a, less a a = false
  trans : ∀ a b c, less a b = true → less b c = true → less a c = true
  incomp_trans : ∀ a b c, less a b = false → less b a = false →
    less b c = false → less c b = false → less a c = false ∧ less c a = false

/-- A key type whose `operator<` is a total order: keys that are not ordered either way are equal. -/
class StrictTotalOrder (κ : Type) extends StrictWeakOrder κ where
  eq_of_incomp : ∀ a b : κ, less a b = false → less b a = false → a = b

open StrictWeakOrder (less)

/-- Key equivalence of the ordered map: neither key is less than the other. -/
def equiv {κ : Type} [StrictWeakOrder κ] (a b : κ) : Bool :=
  !less a b && !less b a

/-- The built-in `operator<` of `int` (integers taken as unbounded). -/
instance instStrictTotalOrderInt : StrictTotalOrder Int where
  less a b := decide (a < b)
  irrefl a := by simp
  trans a b c := by
    simp only [decide_eq_true_eq]
    intro h₁ h₂
    exact lt_trans h₁ h₂
  incomp_trans a b c := by
    simp only [decide_eq_false_iff_not, not_lt]
    intro h₁ h₂ h₃ h₄
    exact ⟨le_trans h₃ h₁, le_trans h₂ h₄⟩
  eq_of_incomp a b := by
    simp only [decide_eq_false_iff_not, not_lt]
    intro h₁ h₂
    exact le_antisymm h₂ h₁

/-- The `operator<` of `std::tuple`: lexicographic, using each component's `operator<`. -/
def tupleLess {α τ : Type} [StrictWeakOrder α] [StrictWeakOrder τ] (x y : α × τ) : Bool :=
  less x.1 y.1 || (!less y.1 x.1 && less x.2 y.2)

/-- The key type `std::tuple<First, Rest...>` of the overload for two or more arguments, with the
tuple written as a pair of its first component and the tuple of the remaining ones. -/
instance instStrictWeakOrderTuple {α τ : Type} [StrictWeakOrder α] [StrictWeakOrder τ] :
    StrictWeakOrder (α × τ) where
  less := tupleLess
  irrefl x := by simp [tupleLess, StrictWeakOrder.irrefl]
  trans x y z := by
    have hli : ∀ a b c : α, less a b = true → less b c = false → less c b = false →
        less a c = true := by
      intro a b c hab hbc hcb
      cases hac : less a c with
      | true => rfl
      | false =>
        cases hca : less c a with
        | true =>
          have := StrictWeakOrder.trans c a b hca hab
          rw [hcb] at this; exact absurd this (by simp)
        | false =>
          have := (StrictWeakOrder.incomp_trans a c b hac hca hcb hbc).1
          rw [hab] at this; exact absurd this (by simp)
    have hil : ∀ a b c : α, less a b = false → less b a = false → less b c = true →
        less a c = true := by
      intro a b c hab hba hbc
      cases hac : less a c with
      | true => rfl
      | false =>
        cases hca : less c a with
        | true =>
          have := StrictWeakOrder.trans b c a hbc hca
          rw [hba] at this; exact absurd this (by simp)
        | false =>
          have := (StrictWeakOrder.incomp_trans b a c hba hab hac hca).1
          rw [hbc] at this; exact absurd this (by simp)
    simp only [tupleLess, Bool.or_eq_true, Bool.and_eq_true, Bool.not_eq_true']
    rintro (h₁ | ⟨h₁, h₁'⟩) (h₂ | ⟨h₂, h₂'⟩)
    · exact Or.inl (StrictWeakOrder.trans _ _ _ h₁ h₂)
    · cases hyz : less y.1 z.1 with
      | true => exact Or.inl (StrictWeakOrder.trans _ _ _ h₁ hyz)
      | false => exact Or.inl (hli _ _ _ h₁ hyz h₂)
    · cases hxy : less x.1 y.1 with
      | true => exact Or.inl (StrictWeakOrder.trans _ _ _ hxy h₂)
      | false => exact Or.inl (hil _ _ _ hxy h₁ h₂)
    · cases hxy : less x.1 y.1 with
      | true =>
        cases hyz : less y.1 z.1 with
        | true => exact Or.inl (StrictWeakOrder.trans _ _ _ hxy hyz)
        | false => exact Or.inl (hli _ _ _ hxy hyz h₂)
      | false =>
        cases hyz : less y.1 z.1 with
        | true => exact Or.inl (hil _ _ _ hxy h₁ hyz)
        | false =>
          have hxz := StrictWeakOrder.incomp_trans x.1 y.1 z.1 hxy h₁ hyz h₂
          exact Or.inr ⟨hxz.2, StrictWeakOrder.trans _ _ _ h₁' h₂'⟩
  incomp_trans x y z := by
    simp only [tupleLess, Bool.or_eq_false_iff, Bool.and_eq_false_imp, Bool.not_eq_true']
    rintro ⟨hxy, hxy'⟩ ⟨hyx, hyx'⟩ ⟨hyz, hyz'⟩ ⟨hzy, hzy'⟩
    have e₁ := StrictWeakOrder.incomp_trans x.1 y.1 z.1 hxy hyx hyz hzy
    have e₂ := StrictWeakOrder.incomp_trans x.2 y.2 z.2 (hxy' hyx) (hyx' hxy) (hyz' hzy) (hzy' hyz)
    exact ⟨⟨e₁.1, fun _ => e₂.1⟩, ⟨e₁.2, fun _ => e₂.2⟩⟩

/-- Tuples of totally ordered components are totally ordered. -/
instance instStrictTotalOrderTuple {α τ : Type} [StrictTotalOrder α] [StrictTotalOrder τ] :
    StrictTotalOrder (α × τ) where
  eq_of_incomp x y := by
    show tupleLess x y = false → tupleLess y x = false → x = y
    simp only [tupleLess, Bool.or_eq_false_iff, Bool.and_eq_false_imp, Bool.not_eq_true']
    rintro ⟨hxy, hxy'⟩ ⟨hyx, hyx'⟩
    exact Prod.ext (StrictTotalOrder.eq_of_incomp _ _ hxy hyx)
      (StrictTotalOrder.eq_of_incomp _ _ (hxy' hyx) (hyx' hxy))

/-! ## The ordered map -/

/-- The state of a `std::map<K, V>`: its entries in iteration order. The map keeps them strictly
ascending by key (`Cache.Ascending`); the operations below preserve that. -/
structure Cache (κ ρ : Type) where
  entries : List (κ × ρ)
deriving DecidableEq, Repr

/-- The walk of `std::map::find` over the entries: skip the entries whose key is less than `k`
(the lower bound), then report the entry reached if `k` is not less than its key. -/
def findEntries {κ ρ : Type} [StrictWeakOrder κ] (k : κ) : List (κ × ρ) → Option (κ × ρ)
  | [] => none
  | e :: es =>
    if less e.1 k then findEntries k es
    else if less k e.1 then none
    else some e

/-- The effect of `m[k] = v` on the entries: walk to the lower bound of `k`; an entry with an
equivalent key keeps its key and gets the value `v`, otherwise `(k, v)` is inserted there. -/
def assignEntries {κ ρ : Type} [StrictWeakOrder κ] (k : κ) (v : ρ) : List (κ × ρ) → List (κ × ρ)
  | [] => [(k, v)]
  | e :: es =>
    if less e.1 k then e :: assignEntries k v es
    else if less k e.1 then (k, v) :: e :: es
    else (e.1, v) :: es

/-- A freshly constructed map: the state of the `static` cache before the first call. -/
def Cache.empty {κ ρ : Type} : Cache κ ρ := ⟨[]⟩

/-- The result of `cache.find(k)`: the entry found, or `none` for `cache.end()`. -/
def Cache.find {κ ρ : Type} [StrictWeakOrder κ] (c : Cache κ ρ) (k : κ) : Option (κ × ρ) :=
  findEntries k c.entries

/-- The map after `cache[k] = v`. -/
def Cache.assign {κ ρ : Type} [StrictWeakOrder κ] (c : Cache κ ρ) (k : κ) (v : ρ) : Cache κ ρ :=
  ⟨assignEntries k v c.entries⟩

/-- Entries in strictly ascending key order: the representation invariant of `std::map`. -/
def Cache.Ascending {κ ρ : Type} [StrictWeakOrder κ] (c : Cache κ ρ) : Prop :=
  c.entries.Pairwise (fun x y => less x.1 y.1 = true)

/-! ## Program state, callables and the two overloads -/

/-- A `static` variable of type `γ` as a location in the program state `σ`. -/
structure Static (σ γ : Type) where
  get : σ → γ
  set : σ → γ → σ
  get_set : ∀ s c, get (set s c) = c
  set_get : ∀ s, set s (get s) = s
  set_set : ∀ s c d, set (set s c) d = set s d

/-- The outcome of a call from a program state: the value returned or the exception thrown,
and the program state the call leaves. -/
abbrev Outcome (σ ε ρ : Type) := Except ε ρ × σ

/-- A callable of one parameter (`FuncType functionPointer`). -/
abbrev Callable (σ κ ε ρ : Type) := κ → σ → Outcome σ ε ρ

/-- A callable of two or more parameters, the first one and the pack of the remaining ones. -/
abbrev Callable₂ (σ α τ ε ρ : Type) := α → τ → σ → Outcome σ ε ρ

/-- The overload `cached_function(FuncType functionPointer, SoleArgType argument)`;
`cache` is its `static std::map<SoleArgType, ResultType<FuncType>>`. -/
def cached_function {σ κ ε ρ : Type} [StrictWeakOrder κ] (cache : Static σ (Cache κ ρ))
    (functionPointer : Callable σ κ ε ρ) (argument : κ) (s : σ) : Outcome σ ε ρ :=
  match (cache.get s).find argument with
  | some cacheIterator => (.ok cacheIterator.2, s)
  | none =>
    match functionPointer argument s with
    | (.ok result, s₁) => (.ok result, cache.set s₁ ((cache.get s₁).assign argument result))
    | (.error e, s₁) => (.error e, s₁)

/-- The overload `cached_function(FuncType functionPointer, ArgTypes ... arguments)` for two or
more arguments; `cache` is its `static std::map<std::tuple<ArgTypes...>, ResultType<FuncType>>`
and `parameters` the tuple `std::make_tuple(arguments...)`. -/
def cached_function_variadic {σ α τ ε ρ : Type} [StrictWeakOrder α] [StrictWeakOrder τ]
    (cache : Static σ (Cache (α × τ) ρ)) (functionPointer : Callable₂ σ α τ ε ρ)
    (argument : α) (arguments : τ) (s : σ) : Outcome σ ε ρ :=
  let parameters : α × τ := (argument, arguments)
  match (cache.get s).find parameters with
  | some cacheIterator => (.ok cacheIterator.2, s)
  | none =>
    match functionPointer argument arguments s with
    | (.ok result, s₁) => (.ok result, cache.set s₁ ((cache.get s₁).assign parameters result))
    | (.error e, s₁) => (.error e, s₁)

/-- The single-argument overload under the order a compiler may choose before C++17 for
`cache[argument] = functionPointer(argument)`, the left operand first: `cache[argument]` inserts
a value-initialised entry under the absent key and yields a reference to its value, then the
callable runs, then its result is assigned through the reference, that is to the entry under
the key in the cache the run left (no call removes an entry). A callable that throws leaves the
inserted entry behind. -/
def cached_function_operator_first {σ κ ε ρ : Type} [StrictWeakOrder κ] [Inhabited ρ]
    (cache : Static σ (Cache κ ρ)) (functionPointer : Callable σ κ ε ρ) (argument : κ) (s : σ) :
    Outcome σ ε ρ :=
  match (cache.get s).find argument with
  | some cacheIterator => (.ok cacheIterator.2, s)
  | none =>
    match functionPointer argument (cache.set s ((cache.get s).assign argument default)) with
    | (.ok result, s₁) => (.ok result, cache.set s₁ ((cache.get s₁).assign argument result))
    | (.error e, s₁) => (.error e, s₁)

/-- The overload for two or more arguments under the order a compiler may choose before C++17
for `cache[parameters] = functionPointer(arguments...)`, the left operand first. -/
def cached_function_variadic_operator_first {σ α τ ε ρ : Type} [StrictWeakOrder α]
    [StrictWeakOrder τ] [Inhabited ρ] (cache : Static σ (Cache (α × τ) ρ))
    (functionPointer : Callable₂ σ α τ ε ρ) (argument : α) (arguments : τ) (s : σ) :
    Outcome σ ε ρ :=
  let parameters : α × τ := (argument, arguments)
  match (cache.get s).find parameters with
  | some cacheIterator => (.ok cacheIterator.2, s)
  | none =>
    match functionPointer argument arguments
        (cache.set s ((cache.get s).assign parameters default)) with
    | (.ok result, s₁) => (.ok result, cache.set s₁ ((cache.get s₁).assign parameters result))
    | (.error e, s₁) => (.error e, s₁)

/-- The program state that holds nothing but one cache. -/
def Static.whole {γ : Type} : Static γ γ where
  get s := s
  set _ c := c
  get_set _ _ := rfl
  set_get _ := rfl
  set_set _ _ _ := rfl

/-- A callable without side effects that always returns: a function of its argument. -/
def pureCallable {σ κ ε ρ : Type} (f : κ → ρ) : Callable σ κ ε ρ :=
  fun a s => (.ok (f a), s)

/-- A callable of two or more parameters without side effects that always returns. -/
def pureCallable₂ {σ α τ ε ρ : Type} (f : α → τ → ρ) : Callable₂ σ α τ ε ρ :=
  fun a as s => (.ok (f a as), s)

/-! ## Programs around the overloads: call sequences, observers, the documented usage -/

/-- Program steps run one after the other from state `s`: the outcome of each step in program
order, and the final state. A step that throws is taken to be caught by its caller, so the
later steps still run. -/
def runAll {σ ε ρ : Type} : List (σ → Outcome σ ε ρ) → σ → List (Except ε ρ) × σ
  | [], s => ([], s)
  | step :: steps, s =>
    ((step s).1 :: (runAll steps (step s).2).1, (runAll steps (step s).2).2)

/-- A program state with one cache and a record of the arguments callables were run with. -/
structure Traced (κ ρ : Type) where
  cache : Cache κ ρ
  invoked : List κ
deriving DecidableEq, Repr

/-- The cache of a `Traced` state. -/
def Traced.static {κ ρ : Type} : Static (Traced κ ρ) (Cache κ ρ) where
  get s := s.cache
  set s c := { s with cache := c }
  get_set _ _ := rfl
  set_get _ := rfl
  set_set _ _ _ := rfl

/-- The function `f` as a callable that records its argument each time it runs. -/
def recording {κ ε ρ : Type} (f : κ → ρ) : Callable (Traced κ ρ) κ ε ρ :=
  fun a s => (.ok (f a), { s with invoked := s.invoked ++ [a] })

/-- The function `f` of two or more parameters as a callable that records its argument tuple
each time it runs. -/
def recording₂ {α τ ε ρ : Type} (f : α → τ → ρ) : Callable₂ (Traced (α × τ) ρ) α τ ε ρ :=
  fun a as s => (.ok (f a as), { s with invoked := s.invoked ++ [(a, as)] })

/-- The static caches of a program, one for each instantiation `i` of `cached_function`
(`K i` its key type, `R i` its result type). -/
abbrev Registry (ι : Type) (K R : ι → Type) := (i : ι) → Cache (K i) (R i)

/-- The static cache of instantiation `i` in the registry. -/
def Registry.static {ι : Type} [DecidableEq ι] {K R : ι → Type} (i : ι) :
    Static (Registry ι K R) (Cache (K i) (R i)) where
  get reg := reg i
  set reg c := Function.update reg i c
  get_set reg c := by simp
  set_get reg := by simp
  set_set reg c d := by simp

/-- The static caches of one instantiation of each overload. -/
structure Overloads (κ ρ α τ ρ₂ : Type) where
  sole : Cache κ ρ
  tuple : Cache (α × τ) ρ₂
deriving DecidableEq, Repr

/-- The static cache of the single-argument instantiation. -/
def Overloads.soleStatic {κ ρ α τ ρ₂ : Type} : Static (Overloads κ ρ α τ ρ₂) (Cache κ ρ) where
  get s := s.sole
  set s c := { s with sole := c }
  get_set _ _ := rfl
  set_get _ := rfl
  set_set _ _ _ := rfl

/-- The static cache of the instantiation for two or more arguments. -/
def Overloads.tupleStatic {κ ρ α τ ρ₂ : Type} :
    Static (Overloads κ ρ α τ ρ₂) (Cache (α × τ) ρ₂) where
  get s := s.tuple
  set s c := { s with tuple := c }
  get_set _ _ := rfl
  set_get _ := rfl
  set_set _ _ _ := rfl

/-- The state `t` still reports every entry that `cache.find` reports in state `s`, with the
same stored key and value. -/
def EntriesKept {σ κ ρ : Type} [StrictWeakOrder κ] (cache : Static σ (Cache κ ρ))
    (s t : σ) : Prop :=
  ∀ k e, (cache.get s).find k = some e → (cache.get t).find k = some e

/-- A callable none of whose runs removes or changes an entry of the cache. The cache is a
function-local static, so a callable reaches it through calls of `cached_function` only. -/
def KeepsEntries {σ κ ε ρ : Type} [StrictWeakOrder κ] (cache : Static σ (Cache κ ρ))
    (f : Callable σ κ ε ρ) : Prop :=
  ∀ a s, EntriesKept cache s (f a s).2

/-- Every entry of the cache holds, under its key, the value of the function `f` at that key. -/
def Cache.ConsistentWith {κ ρ : Type} (c : Cache κ ρ) (f : κ → ρ) : Prop :=
  ∀ e ∈ c.entries, e.2 = f e.1

/-- The one-parameter function of the concrete scenario: `f(n) = n * 2`. -/
def twice (n : Int) : Int := n * 2

/-- The two-parameter function of the concrete scenario: `g(a, b) = a + b`. -/
def sum (a b : Int) : Int := a + b

/-- A callable that makes a nested call on the same instantiation, with its own argument, and
then returns a value of its own: `int f(int n) { cached_function(twice, n); return 7; }`. -/
def storeThenReturn {σ : Type} (cache : Static σ (Cache Int Int)) : Callable σ Int Nat Int :=
  fun n s =>
    (.ok 7, (cached_function cache (pureCallable twice : Callable σ Int Nat Int) n s).2)

/-- The callable `storeThenReturn` when the code is built with the left operand of the
assignment evaluated first. -/
def storeThenReturn_operator_first {σ : Type} (cache : Static σ (Cache Int Int)) :
    Callable σ Int Nat Int :=
  fun n s =>
    (.ok 7,
      (cached_function_operator_first cache (pureCallable twice : Callable σ Int Nat Int) n s).2)

/-- A callable that records its argument and then throws `e`. -/
def recordingThrow {κ ε ρ : Type} (e : ε) : Callable (Traced κ ρ) κ ε ρ :=
  fun a s => (.error e, { s with invoked := s.invoked ++ [a] })

/-- The memoized `fib` of the header comment,
`if (n < 2) return n; return cached_function(fib, n - 1) + cached_function(fib, n - 2);`,
with integers taken as unbounded. `depth` bounds the nesting of calls of `fib`; a run that
would nest deeper stops with the error `()`. The left operand of `+` is evaluated first. -/
def fib {σ : Type} (cache : Static σ (Cache Int Int)) : Nat → Callable σ Int Unit Int
  | 0 => fun _ s => (.error (), s)
  | depth + 1 => fun n s =>
    if n < 2 then (.ok n, s)
    else
      match cached_function cache (fib cache depth) (n - 1) s with
      | (.error e, s₁) => (.error e, s₁)
      | (.ok x, s₁) =>
        match cached_function cache (fib cache depth) (n - 2) s₁ with
        | (.error e, s₂) => (.error e, s₂)
        | (.ok y, s₂) => (.ok (x + y), s₂)

/-- A program state with one cache and a global counter. -/
structure Counted (κ ρ : Type) where
  cache : Cache κ ρ
  counter : Nat
deriving DecidableEq, Repr

/-- The cache of a `Counted` state. -/
def Counted.static {κ ρ : Type} : Static (Counted κ ρ) (Cache κ ρ) where
  get s := s.cache
  set s c := { s with cache := c }
  get_set _ _ := rfl
  set_get _ := rfl
  set_set _ _ _ := rfl

/-- The function `f` as a callable that increments the global counter each time it runs. -/
def counting {κ ε ρ : Type} (f : κ → ρ) : Callable (Counted κ ρ) κ ε ρ :=
  fun a s => (.ok (f a), { s with counter := s.counter + 1 })

/-- The plain recursive `fib` of the header comment,
`if (n < 2) return n; return fib(n - 1) + fib(n - 2);`, with integers taken as unbounded. -/
def plain_fib (n : Int) : Int :=
  if n < 2 then n else plain_fib (n - 1) + plain_fib (n - 2)
termination_by n.toNat
decreasing_by
  all_goals simp_wf
  all_goals omega

/-- A key type whose `operator<` compares the identifier and ignores the tag: two keys with the
same identifier are equivalent for the ordered map without being equal. -/
structure Tagged where
  ident : Int
  tag : Int
deriving DecidableEq, Repr

/-- The `operator<` of `Tagged` keys, `a.ident < b.ident`. -/
instance instStrictWeakOrderTagged : StrictWeakOrder Tagged where
  less a b := decide (a.ident < b.ident)
  irrefl a := by simp
  trans a b c := by
    simp only [decide_eq_true_eq]
    intro h₁ h₂
    exact lt_trans h₁ h₂
  incomp_trans a b c := by
    simp only [decide_eq_false_iff_not, not_lt]
    intro h₁ h₂ h₃ h₄
    exact ⟨le_trans h₃ h₁, le_trans h₂ h₄⟩

/-- The memoized `fib` of the header comment on a state with a global counter of the runs of
its body: the body increments the counter on entry and is `fib` otherwise. -/
def fib_counting : Nat → Callable (Counted Int Int) Int Unit Int
  | 0 => fun _ s => (.error (), s)
  | depth + 1 => fun n s =>
    if n < 2 then (.ok n, { s with counter := s.counter + 1 })
    else
      match cached_function Counted.static (fib_counting depth) (n - 1)
          { s with counter := s.counter + 1 } with
      | (.error e, s₁) => (.error e, s₁)
      | (.ok x, s₁) =>
        match cached_function Counted.static (fib_counting depth) (n - 2) s₁ with
        | (.error e, s₂) => (.error e, s₂)
        | (.ok y, s₂) => (.ok (x + y), s₂)

/-- The cache that holds exactly the keys `0, 1, ..., m - 1`, each with the plain `fib` of the
key. -/
def fibTable (m : Nat) : Cache Int Int :=
  ⟨(List.range m).map (fun i : Nat => ((i : Int), plain_fib (i : Int)))⟩

/-! ## Facts about the key order -/

theorem less_asymm {κ : Type} [StrictWeakOrder κ] {a b : κ} (h : less a b = true) :
    less b a = false := by
  cases hba : less b a with
  | false => rfl
  | true =>
    have := StrictWeakOrder.trans a b a h hba
    rw [StrictWeakOrder.irrefl] at this
    exact absurd this (by simp)

theorem equiv_iff {κ : Type} [StrictWeakOrder κ] (a b : κ) :
    equiv a b = true ↔ less a b = false ∧ less b a = false := by
  simp [equiv]

theorem equiv_eq_false_iff {κ : Type} [StrictWeakOrder κ] (a b : κ) :
    equiv a b = false ↔ less a b = true ∨ less b a = true := by
  cases h₁ : less a b <;> cases h₂ : less b a <;> simp [equiv, h₁, h₂]

theorem equiv_refl {κ : Type} [StrictWeakOrder κ] (a : κ) : equiv a a = true := by
  simp [equiv, StrictWeakOrder.irrefl]

theorem equiv_symm {κ : Type} [StrictWeakOrder κ] {a b : κ} (h : equiv a b = true) :
    equiv b a = true := by
  rw [equiv_iff] at h ⊢
  exact ⟨h.2, h.1⟩

theorem equiv_trans {κ : Type} [StrictWeakOrder κ] {a b c : κ} (h₁ : equiv a b = true)
    (h₂ : equiv b c = true) : equiv a c = true := by
  rw [equiv_iff] at h₁ h₂ ⊢
  exact StrictWeakOrder.incomp_trans a b c h₁.1 h₁.2 h₂.1 h₂.2

/-- Equivalent keys compare alike against every key on their right. -/
theorem less_congr_left {κ : Type} [StrictWeakOrder κ] {a b : κ} (h : equiv a b = true)
    (c : κ) : less a c = less b c := by
  rw [equiv_iff] at h
  cases hac : less a c <;> cases hbc : less b c <;> try rfl
  · cases hca : less c a with
    | true =>
      have := StrictWeakOrder.trans b c a hbc hca
      rw [h.2] at this; exact absurd this (by simp)
    | false =>
      have := (StrictWeakOrder.incomp_trans b a c h.2 h.1 hac hca).1
      rw [hbc] at this; exact absurd this (by simp)
  · cases hcb : less c b with
    | true =>
      have := StrictWeakOrder.trans a c b hac hcb
      rw [h.1] at this; exact absurd this (by simp)
    | false =>
      have := (StrictWeakOrder.incomp_trans a b c h.1 h.2 hbc hcb).1
      rw [hac] at this; exact absurd this (by simp)

/-- Equivalent keys compare alike against every key on their left. -/
theorem less_congr_right {κ : Type} [StrictWeakOrder κ] {a b : κ} (h : equiv a b = true)
    (c : κ) : less c a = less c b := by
  rw [equiv_iff] at h
  cases hca : less c a <;> cases hcb : less c b <;> try rfl
  · cases hac : less a c with
    | true =>
      have := StrictWeakOrder.trans a c b hac hcb
      rw [h.1] at this; exact absurd this (by simp)
    | false =>
      have := (StrictWeakOrder.incomp_trans c a b hca hac h.1 h.2).1
      rw [hcb] at this; exact absurd this (by simp)
  · cases hbc : less b c with
    | true =>
      have := StrictWeakOrder.trans b c a hbc hca
      rw [h.2] at this; exact absurd this (by simp)
    | false =>
      have := (StrictWeakOrder.incomp_trans c b a hcb hbc h.2 h.1).1
      rw [hca] at this; exact absurd this (by simp)

/-! ## Facts about the ordered map -/

/-- The lookup of a key depends on its equivalence class only. -/
theorem findEntries_congr {κ ρ : Type} [StrictWeakOrder κ] {k a : κ} (h : equiv k a = true)
    (es : List (κ × ρ)) : findEntries k es = findEntries a es := by
  induction es with
  | nil => rfl
  | cons e es ih =>
    simp only [findEntries, less_congr_right h e.1, less_congr_left h e.1, ih]

/-- What `find` reports is an entry of the map whose key is equivalent to the key looked up. -/
theorem findEntries_some {κ ρ : Type} [StrictWeakOrder κ] {k : κ} {es : List (κ × ρ)}
    {e : κ × ρ} (h : findEntries k es = some e) : e ∈ es ∧ equiv e.1 k = true := by
  induction es with
  | nil => simp [findEntries] at h
  | cons d ds ih =>
    simp only [findEntries] at h
    split at h
    · exact ⟨List.mem_cons_of_mem _ (ih h).1, (ih h).2⟩
    · split at h
      · simp at h
      · rename_i h₁ h₂
        simp only [Option.some.injEq] at h
        subst h
        refine ⟨List.mem_cons_self _ _, ?_⟩
        rw [equiv_iff]
        exact ⟨by simpa using h₁, by simpa using h₂⟩

/-- In a map in ascending order, `find` reports `end()` exactly when no entry has an
equivalent key. -/
theorem findEntries_eq_none_iff {κ ρ : Type} [StrictWeakOrder κ] (k : κ) (es : List (κ × ρ))
    (hasc : es.Pairwise (fun x y => less x.1 y.1 = true)) :
    findEntries k es = none ↔ ∀ e ∈ es, equiv e.1 k = false := by
  induction es with
  | nil => simp [findEntries]
  | cons d ds ih =>
    have hcons := List.pairwise_cons.1 hasc
    simp only [findEntries, List.mem_cons, forall_eq_or_imp]
    split
    · rename_i h₁
      rw [ih hcons.2]
      constructor
      · intro h
        exact ⟨(equiv_eq_false_iff _ _).2 (Or.inl h₁), h⟩
      · intro h
        exact h.2
    · split
      · rename_i h₁ h₂
        constructor
        · intro _
          refine ⟨(equiv_eq_false_iff _ _).2 (Or.inr h₂), ?_⟩
          intro e he
          exact (equiv_eq_false_iff _ _).2
            (Or.inr (StrictWeakOrder.trans _ _ _ h₂ (hcons.1 e he)))
        · intro _
          rfl
      · rename_i h₁ h₂
        constructor
        · intro h
          simp at h
        · intro h
          have := h.1
          rw [equiv_eq_false_iff] at this
          rcases this with h | h
          · exact absurd h h₁
          · exact absurd h h₂

/-- After `m[k] = v`, looking up `k` reports the value `v`, under the key the map already held
for it or else under `k` itself. -/
theorem findEntries_assignEntries_self {κ ρ : Type} [StrictWeakOrder κ] (k : κ) (v : ρ)
    (es : List (κ × ρ)) :
    findEntries k (assignEntries k v es)
      = some (((findEntries k es).map Prod.fst).getD k, v) := by
  induction es with
  | nil => simp [findEntries, assignEntries, StrictWeakOrder.irrefl]
  | cons e es ih =>
    simp only [findEntries, assignEntries]
    split
    · rename_i h₁
      simp only [findEntries, h₁, if_true, ih]
    · split
      · rename_i h₁ h₂
        simp [findEntries, StrictWeakOrder.irrefl]
      · rename_i h₁ h₂
        simp [findEntries, h₁, h₂]

/-- After `m[a] = v`, the lookup of a key not equivalent to `a` is what it was. -/
theorem findEntries_assignEntries_other {κ ρ : Type} [StrictWeakOrder κ] {k a : κ}
    (h : equiv k a = false) (v : ρ) (es : List (κ × ρ)) :
    findEntries k (assignEntries a v es) = findEntries k es := by
  have hka := (equiv_eq_false_iff k a).1 h
  induction es with
  | nil =>
    simp only [findEntries, assignEntries]
    rcases hka with h₁ | h₁
    · simp [less_asymm h₁, h₁]
    · simp [h₁]
  | cons e es ih =>
    simp only [assignEntries]
    split
    · simp only [findEntries, ih]
    · split
      · rename_i h₁ h₂
        rcases hka with h₃ | h₃
        · have h₄ := StrictWeakOrder.trans _ _ _ h₃ h₂
          simp [findEntries, less_asymm h₃, h₃, less_asymm h₄, h₄]
        · simp [findEntries, h₃]
      · rename_i h₁ h₂
        have hea : equiv e.1 a = true := by
          rw [equiv_iff]; exact ⟨by simpa using h₁, by simpa using h₂⟩
        simp only [findEntries]
        by_cases h₃ : less e.1 k = true
        · simp [h₃]
        · by_cases h₄ : less k e.1 = true
          · simp [h₃, h₄]
          · have hke : equiv k e.1 = true := by
              rw [equiv_iff]; exact ⟨by simpa using h₄, by simpa using h₃⟩
            rw [equiv_trans hke hea] at h
            exact absurd h (by simp)

/-- On a miss, `m[k] = v` adds the one entry `(k, v)` and keeps every other entry. -/
theorem assignEntries_perm {κ ρ : Type} [StrictWeakOrder κ] (k : κ) (v : ρ)
    (es : List (κ × ρ)) (h : findEntries k es = none) :
    (assignEntries k v es).Perm ((k, v) :: es) := by
  induction es with
  | nil => simp [assignEntries]
  | cons e es ih =>
    simp only [findEntries] at h
    simp only [assignEntries]
    split
    · rename_i h₁
      simp only [h₁, if_true] at h
      exact ((ih h).cons e).trans (List.Perm.swap _ _ _)
    · rename_i h₁
      simp only [h₁] at h
      split
      · exact List.Perm.refl _
      · rename_i h₂
        simp [h₂] at h

theorem key_of_mem_assignEntries {κ ρ : Type} [StrictWeakOrder κ] (k : κ) (v : ρ)
    (es : List (κ × ρ)) (x : κ × ρ) (hx : x ∈ assignEntries k v es) :
    x = (k, v) ∨ x ∈ es ∨ ∃ y ∈ es, equiv y.1 k = true ∧ x = (y.1, v) := by
  induction es with
  | nil =>
    simp only [assignEntries, List.mem_singleton] at hx
    exact Or.inl hx
  | cons e es ih =>
    simp only [assignEntries] at hx
    split at hx
    · rcases List.mem_cons.1 hx with h | h
      · exact Or.inr (Or.inl (by simp [h]))
      · rcases ih h with h | h | ⟨y, hy, h⟩
        · exact Or.inl h
        · exact Or.inr (Or.inl (List.mem_cons_of_mem _ h))
        · exact Or.inr (Or.inr ⟨y, List.mem_cons_of_mem _ hy, h⟩)
    · split at hx
      · rcases List.mem_cons.1 hx with h | h
        · exact Or.inl h
        · exact Or.inr (Or.inl h)
      · rename_i h₁ h₂
        rcases List.mem_cons.1 hx with h | h
        · refine Or.inr (Or.inr ⟨e, List.mem_cons_self _ _, ?_, h⟩)
          rw [equiv_iff]; exact ⟨by simpa using h₁, by simpa using h₂⟩
        · exact Or.inr (Or.inl (List.mem_cons_of_mem _ h))

/-- A freshly constructed map is in ascending order. -/
theorem ascending_empty {κ ρ : Type} [StrictWeakOrder κ] :
    (Cache.empty : Cache κ ρ).Ascending := by
  simp [Cache.Ascending, Cache.empty]

/-- The assignment `m[k] = v` keeps the map in ascending order. -/
theorem ascending_assign {κ ρ : Type} [StrictWeakOrder κ] (k : κ) (v : ρ)
    (c : Cache κ ρ) (h : c.Ascending) : (c.assign k v).Ascending := by
  obtain ⟨es⟩ := c
  simp only [Cache.Ascending, Cache.assign] at h ⊢
  induction es with
  | nil => simp [assignEntries]
  | cons e es ih =>
    have hcons := List.pairwise_cons.1 h
    simp only [assignEntries]
    split
    · rename_i hek
      refine List.pairwise_cons.2 ⟨?_, ih hcons.2⟩
      intro x hx
      rcases key_of_mem_assignEntries k v es x hx with hx | hx | ⟨y, hy, _, hx⟩
      · rw [hx]; exact hek
      · exact hcons.1 x hx
      · rw [hx]; exact hcons.1 y hy
    · split
      · rename_i hke
        refine List.pairwise_cons.2 ⟨?_, h⟩
        intro x hx
        rcases List.mem_cons.1 hx with hx | hx
        · rw [hx]; exact hke
        · exact StrictWeakOrder.trans _ _ _ hke (hcons.1 x hx)
      · exact List.pairwise_cons.2 ⟨fun x hx => hcons.1 x hx, hcons.2⟩

/-- In a map in ascending order, looking up a key equivalent to the key of an entry reports
that entry. -/
theorem findEntries_of_mem {κ ρ : Type} [StrictWeakOrder κ] (a : κ) (es : List (κ × ρ))
    (hasc : es.Pairwise (fun x y => less x.1 y.1 = true)) (e : κ × ρ) (he : e ∈ es)
    (ha : equiv a e.1 = true) : findEntries a es = some e := by
  induction es with
  | nil => simp at he
  | cons d ds ih =>
    have hcons := List.pairwise_cons.1 hasc
    simp only [findEntries]
    rcases List.mem_cons.1 he with hd | hd
    · subst hd
      have := (equiv_iff _ _).1 ha
      simp [this.1, this.2]
    · have hless : less d.1 a = true := by
        rw [less_congr_right ha d.1]
        exact hcons.1 e hd
      simp only [hless, if_true]
      exact ih hcons.2 hd

/-- Tuple keys are equivalent exactly when they are equivalent in every position. -/
theorem equiv_tuple {α τ : Type} [StrictWeakOrder α] [StrictWeakOrder τ] (x y : α × τ) :
    equiv x y = (equiv x.1 y.1 && equiv x.2 y.2) := by
  show (!tupleLess x y && !tupleLess y x) = (equiv x.1 y.1 && equiv x.2 y.2)
  simp only [tupleLess, equiv]
  cases less x.1 y.1 <;> cases less y.1 x.1 <;> cases less x.2 y.2 <;> cases less y.2 x.2 <;> rfl

/-- Over a total order, different keys are not equivalent. -/
theorem equiv_eq_false_of_ne {κ : Type} [StrictTotalOrder κ] {a b : κ} (h : a ≠ b) :
    equiv a b = false := by
  cases heq : equiv a b with
  | false => rfl
  | true =>
    have := (equiv_iff _ _).1 heq
    exact absurd (StrictTotalOrder.eq_of_incomp _ _ this.1 this.2) h

/-! ## The two overloads, step by step -/

/-- The multi-argument overload is the single-argument code run on the tuple of the arguments. -/
theorem cached_function_variadic_eq {σ α τ ε ρ : Type} [StrictWeakOrder α] [StrictWeakOrder τ]
    (cache : Static σ (Cache (α × τ) ρ)) (f : Callable₂ σ α τ ε ρ) (a : α) (as : τ) (s : σ) :
    cached_function_variadic cache f a as s
      = cached_function cache (fun p => f p.1 p.2) (a, as) s := by
  simp only [cached_function_variadic, cached_function]
  cases (cache.get s).find (a, as) with
  | some e => rfl
  | none =>
    rcases hf : f a as s with ⟨o, s₁⟩
    cases o <;> simp [hf]

theorem cached_function_of_find_some {σ κ ε ρ : Type} [StrictWeakOrder κ]
    (cache : Static σ (Cache κ ρ)) (f : Callable σ κ ε ρ) (a : κ) (s : σ) (e : κ × ρ)
    (h : (cache.get s).find a = some e) : cached_function cache f a s = (.ok e.2, s) := by
  simp [cached_function, h]

theorem cached_function_of_ok {σ κ ε ρ : Type} [StrictWeakOrder κ]
    (cache : Static σ (Cache κ ρ)) (f : Callable σ κ ε ρ) (a : κ) (s : σ) (r : ρ) (s₁ : σ)
    (h : (cache.get s).find a = none) (hf : f a s = (.ok r, s₁)) :
    cached_function cache f a s
      = (.ok r, cache.set s₁ ((cache.get s₁).assign a r)) := by
  simp [cached_function, h, hf]

theorem cached_function_of_error {σ κ ε ρ : Type} [StrictWeakOrder κ]
    (cache : Static σ (Cache κ ρ)) (f : Callable σ κ ε ρ) (a : κ) (s : σ) (e : ε) (s₁ : σ)
    (h : (cache.get s).find a = none) (hf : f a s = (.error e, s₁)) :
    cached_function cache f a s = (.error e, s₁) := by
  simp [cached_function, h, hf]

theorem find_assign_self {κ ρ : Type} [StrictWeakOrder κ] (c : Cache κ ρ) (a : κ) (r : ρ) :
    (c.assign a r).find a = some (((c.find a).map Prod.fst).getD a, r) :=
  findEntries_assignEntries_self a r c.entries

theorem find_assign_other {κ ρ : Type} [StrictWeakOrder κ] (c : Cache κ ρ) {k a : κ}
    (h : equiv k a = false) (r : ρ) : (c.assign a r).find k = c.find k :=
  findEntries_assignEntries_other h r c.entries

/-- What a miss does, for a callable that returns: the callable is run once on the argument
from the state of the call, and its result is assigned under the key in the cache of the state
that run left. -/
theorem miss_ok_facts {σ κ ε ρ : Type} [StrictWeakOrder κ]
    (cache : Static σ (Cache κ ρ)) (f : Callable σ κ ε ρ) (a : κ) (s : σ) (r : ρ) (s₁ : σ)
    (h : (cache.get s).find a = none) (hf : f a s = (.ok r, s₁)) :
    cached_function cache f a s = (.ok r, cache.set s₁ ((cache.get s₁).assign a r)) ∧
    cache.get (cached_function cache f a s).2 = (cache.get s₁).assign a r ∧
    (∃ k, equiv k a = true ∧ (cache.get (cached_function cache f a s).2).find a = some (k, r)) ∧
    (∀ k, equiv k a = false →
      (cache.get (cached_function cache f a s).2).find k = (cache.get s₁).find k) ∧
    (cache.get s₁ = cache.get s →
      (cache.get (cached_function cache f a s).2).entries.Perm ((a, r) :: (cache.get s).entries) ∧
      (cache.get (cached_function cache f a s).2).find a = some (a, r) ∧
      ∀ k, equiv k a = false →
        (cache.get (cached_function cache f a s).2).find k = (cache.get s).find k) := by
  have h₁ := cached_function_of_ok cache f a s r s₁ h hf
  have h₂ : cache.get (cached_function cache f a s).2 = (cache.get s₁).assign a r := by
    rw [h₁, cache.get_set]
  refine ⟨h₁, h₂, ?_, ?_, ?_⟩
  · rw [h₂, find_assign_self]
    refine ⟨_, ?_, rfl⟩
    cases hfind : (cache.get s₁).find a with
    | none => simp [equiv_refl]
    | some e => simpa using (findEntries_some hfind).2
  · intro k hk
    rw [h₂, find_assign_other _ hk]
  · intro hsame
    rw [h₂, hsame]
    refine ⟨assignEntries_perm a r _ h, ?_, ?_⟩
    · rw [find_assign_self, h]; rfl
    · intro k hk
      rw [find_assign_other _ hk]

/-- One call for a function without side effects, from a cache consistent with it: the call
returns the value of the function and leaves a cache consistent with it. -/
theorem pure_call_consistent {σ κ ε ρ : Type} [StrictTotalOrder κ]
    (cache : Static σ (Cache κ ρ)) (f : κ → ρ) (a : κ) (s : σ)
    (hc : (cache.get s).ConsistentWith f) :
    (cached_function cache (pureCallable f : Callable σ κ ε ρ) a s).1 = .ok (f a) ∧
    (cache.get (cached_function cache (pureCallable f : Callable σ κ ε ρ) a s).2).ConsistentWith
      f := by
  cases hfind : (cache.get s).find a with
  | some e =>
    rw [cached_function_of_find_some cache _ a s e hfind]
    have he := findEntries_some hfind
    have hkey : e.1 = a := by
      have := (equiv_iff _ _).1 he.2
      exact StrictTotalOrder.eq_of_incomp _ _ this.1 this.2
    refine ⟨?_, hc⟩
    show Except.ok e.2 = Except.ok (f a)
    rw [hc e he.1, hkey]
  | none =>
    rw [cached_function_of_ok cache _ a s (f a) s hfind rfl]
    refine ⟨rfl, ?_⟩
    show (cache.get (cache.set s ((cache.get s).assign a (f a)))).ConsistentWith f
    rw [cache.get_set]
    intro x hx
    rcases key_of_mem_assignEntries a (f a) _ x hx with hx | hx | ⟨y, _, hy, hx⟩
    · rw [hx]
    · exact hc x hx
    · have := (equiv_iff _ _).1 hy
      rw [hx, StrictTotalOrder.eq_of_incomp _ _ this.1 this.2]

/-- A sequence of calls for one function without side effects, from a cache consistent with it:
every call returns the value of the function at its argument. -/
theorem pure_calls_results {σ κ ε ρ : Type} [StrictTotalOrder κ]
    (cache : Static σ (Cache κ ρ)) (f : κ → ρ) (as : List κ) (s : σ)
    (hc : (cache.get s).ConsistentWith f) :
    (runAll (as.map (cached_function cache (pureCallable f : Callable σ κ ε ρ))) s).1
      = as.map (fun a => Except.ok (f a)) := by
  induction as generalizing s with
  | nil => rfl
  | cons a as ih =>
    have hstep := pure_call_consistent (ε := ε) cache f a s hc
    simp only [List.map_cons, runAll, hstep.1, ih _ hstep.2]

/-- A sequence of calls of the multi-argument overload is the sequence of calls of the
single-argument code on the argument tuples. -/
theorem variadic_steps_eq {σ α τ ε ρ : Type} [StrictWeakOrder α] [StrictWeakOrder τ]
    (cache : Static σ (Cache (α × τ) ρ)) (f : Callable₂ σ α τ ε ρ) (as : List (α × τ)) :
    as.map (fun p => cached_function_variadic cache f p.1 p.2)
      = as.map (cached_function cache (fun p => f p.1 p.2)) := by
  apply List.map_congr_left
  intro p _
  funext s
  exact cached_function_variadic_eq cache f p.1 p.2 s

/-- One call for a recorded function: a hit returns the stored value and leaves the state; a miss
runs the function, records the argument and stores the result. -/
theorem recording_call {κ ε ρ : Type} [StrictWeakOrder κ] (g : κ → ρ) (b : κ)
    (s : Traced κ ρ) :
    (∀ e, s.cache.find b = some e →
      cached_function Traced.static (recording g : Callable (Traced κ ρ) κ ε ρ) b s
        = (.ok e.2, s)) ∧
    (s.cache.find b = none →
      cached_function Traced.static (recording g : Callable (Traced κ ρ) κ ε ρ) b s
        = (.ok (g b), ⟨s.cache.assign b (g b), s.invoked ++ [b]⟩)) := by
  constructor
  · intro e h
    exact cached_function_of_find_some Traced.static _ b s e h
  · intro h
    exact cached_function_of_ok Traced.static _ b s (g b) ⟨s.cache, s.invoked ++ [b]⟩ h rfl

/-- Once the key of `a` is present, every later call with `a` returns the stored value, no
function is run with an argument equivalent to `a`, and the entry stays. -/
theorem recorded_calls_of_present {κ ε ρ : Type} [StrictWeakOrder κ] (a : κ)
    (calls : List ((κ → ρ) × κ)) (s : Traced κ ρ) (e : κ × ρ) (h : s.cache.find a = some e) :
    (∀ j : Nat, (calls[j]?).map Prod.snd = some a →
      (runAll (calls.map (fun c => cached_function Traced.static
        (recording c.1 : Callable (Traced κ ρ) κ ε ρ) c.2)) s).1[j]? = some (Except.ok e.2)) ∧
    (runAll (calls.map (fun c => cached_function Traced.static
        (recording c.1 : Callable (Traced κ ρ) κ ε ρ) c.2)) s).2.invoked.countP
          (fun b => equiv b a)
      = s.invoked.countP (fun b => equiv b a) := by
  induction calls generalizing s with
  | nil => simp [runAll]
  | cons c cs ih =>
    simp only [List.map_cons, runAll]
    cases hfind : s.cache.find c.2 with
    | some d =>
      rw [(recording_call c.1 c.2 s).1 d hfind]
      refine ⟨?_, (ih s h).2⟩
      intro j hj
      cases j with
      | zero =>
        simp only [List.getElem?_cons_zero, Option.map_some', Option.some.injEq] at hj
        rw [hj, h] at hfind
        simp only [Option.some.injEq] at hfind
        simp [hfind]
      | succ j =>
        simp only [List.getElem?_cons_succ] at hj ⊢
        exact (ih s h).1 j hj
    | none =>
      rw [(recording_call c.1 c.2 s).2 hfind]
      have hne : equiv a c.2 = false := by
        cases heq : equiv a c.2 with
        | false => rfl
        | true =>
          have := findEntries_congr heq s.cache.entries
          simp only [Cache.find] at h hfind
          rw [this, hfind] at h
          simp at h
      have hne₂ : equiv c.2 a = false := by
        cases hca : equiv c.2 a with
        | false => rfl
        | true => rw [equiv_symm hca] at hne; exact absurd hne (by simp)
      have h₁ : (s.cache.assign c.2 (c.1 c.2)).find a = some e := by
        rw [find_assign_other _ hne, h]
      have ih₁ := ih ⟨s.cache.assign c.2 (c.1 c.2), s.invoked ++ [c.2]⟩ h₁
      refine ⟨?_, ?_⟩
      · intro j hj
        cases j with
        | zero =>
          simp only [List.getElem?_cons_zero, Option.map_some', Option.some.injEq] at hj
          rw [hj, equiv_refl] at hne
          exact absurd hne (by simp)
        | succ j =>
          simp only [List.getElem?_cons_succ] at hj ⊢
          exact ih₁.1 j hj
      · rw [ih₁.2]
        simp [List.countP_append, hne₂]

/-- After a call with `a` for a recorded function, the key of `a` is present with the value the
call returned. -/
theorem recording_call_present {κ ε ρ : Type} [StrictWeakOrder κ] (g : κ → ρ) (a : κ)
    (s : Traced κ ρ) :
    ∃ e, (cached_function Traced.static (recording g : Callable (Traced κ ρ) κ ε ρ) a s).1
        = .ok e.2 ∧
      (cached_function Traced.static (recording g : Callable (Traced κ ρ) κ ε ρ) a s).2.cache.find
        a = some e := by
  cases hfind : s.cache.find a with
  | some d =>
    rw [(recording_call g a s).1 d hfind]
    exact ⟨d, rfl, hfind⟩
  | none =>
    rw [(recording_call g a s).2 hfind]
    exact ⟨(a, g a), rfl, by simp [find_assign_self, hfind]⟩

/-- In a sequence of calls for recorded functions, two calls with the same argument return the
same value. -/
theorem recorded_calls_agree {κ ε ρ : Type} [StrictWeakOrder κ] (a : κ)
    (calls : List ((κ → ρ) × κ)) (s : Traced κ ρ) (i j : Nat) (hij : i < j)
    (hi : (calls[i]?).map Prod.snd = some a) (hj : (calls[j]?).map Prod.snd = some a) :
    (runAll (calls.map (fun c => cached_function Traced.static
        (recording c.1 : Callable (Traced κ ρ) κ ε ρ) c.2)) s).1[j]?
      = (runAll (calls.map (fun c => cached_function Traced.static
        (recording c.1 : Callable (Traced κ ρ) κ ε ρ) c.2)) s).1[i]? := by
  induction calls generalizing s i j with
  | nil => simp at hi
  | cons c cs ih =>
    cases j with
    | zero => exact absurd hij (Nat.not_lt_zero _)
    | succ j =>
      simp only [List.map_cons, runAll, List.getElem?_cons_succ] at hj ⊢
      cases i with
      | zero =>
        simp only [List.getElem?_cons_zero, Option.map_some', Option.some.injEq] at hi
        obtain ⟨e, he₁, he₂⟩ := recording_call_present (ε := ε) c.1 c.2 s
        rw [hi] at he₁ he₂
        rw [hi, List.getElem?_cons_zero, he₁]
        exact (recorded_calls_of_present a cs _ e he₂).1 j hj
      | succ i =>
        simp only [List.getElem?_cons_succ] at hi ⊢
        exact ih _ i j (Nat.lt_of_succ_lt_succ hij) hi hj

/-- In a sequence of calls for recorded functions, at most one run has an argument equivalent
to `a`. -/
theorem recorded_calls_count {κ ε ρ : Type} [StrictWeakOrder κ] (a : κ)
    (calls : List ((κ → ρ) × κ)) (s : Traced κ ρ) :
    (runAll (calls.map (fun c => cached_function Traced.static
        (recording c.1 : Callable (Traced κ ρ) κ ε ρ) c.2)) s).2.invoked.countP
          (fun b => equiv b a)
      ≤ s.invoked.countP (fun b => equiv b a) + 1 := by
  induction calls generalizing s with
  | nil => simp [runAll]
  | cons c cs ih =>
    simp only [List.map_cons, runAll]
    cases hfind : s.cache.find c.2 with
    | some d =>
      rw [(recording_call c.1 c.2 s).1 d hfind]
      exact ih s
    | none =>
      rw [(recording_call c.1 c.2 s).2 hfind]
      cases hca : equiv c.2 a with
      | true =>
        have h₁ : (s.cache.assign c.2 (c.1 c.2)).find a = some (c.2, c.1 c.2) := by
          have := findEntries_congr (equiv_symm hca) (s.cache.assign c.2 (c.1 c.2)).entries
          simp only [Cache.find] at hfind ⊢
          rw [this]
          have h₂ := find_assign_self s.cache c.2 (c.1 c.2)
          simp only [Cache.find, hfind] at h₂
          exact h₂
        rw [(recorded_calls_of_present a cs _ _ h₁).2]
        simp [List.countP_append, hca]
      | false =>
        refine le_trans (ih _) ?_
        simp [List.countP_append, hca]

/-- A recorded function of two or more parameters is the recorded function of the tuple. -/
theorem recording₂_eq {α τ ε ρ : Type} (g : α → τ → ρ) :
    (fun p => recording₂ g p.1 p.2 : Callable (Traced (α × τ) ρ) (α × τ) ε ρ)
      = recording (fun p => g p.1 p.2) := rfl

/-- A sequence of calls of the multi-argument overload for recorded functions is the sequence of
calls of the single-argument code for the functions of the tuple. -/
theorem recorded_steps_eq {α τ ε ρ : Type} [StrictWeakOrder α] [StrictWeakOrder τ]
    (calls : List ((α → τ → ρ) × (α × τ))) :
    calls.map (fun c => cached_function_variadic Traced.static
        (recording₂ c.1 : Callable₂ (Traced (α × τ) ρ) α τ ε ρ) c.2.1 c.2.2)
      = (calls.map (fun c => ((fun p => c.1 p.1 p.2 : α × τ → ρ), c.2))).map
          (fun c => cached_function Traced.static
            (recording c.1 : Callable (Traced (α × τ) ρ) (α × τ) ε ρ) c.2) := by
  rw [List.map_map]
  apply List.map_congr_left
  intro c _
  funext s
  exact cached_function_variadic_eq Traced.static _ c.2.1 c.2.2 s

/-- A call throws exactly when the key is absent and the callable throws, and then it throws
what the callable threw. -/
theorem error_iff {σ κ ε ρ : Type} [StrictWeakOrder κ]
    (cache : Static σ (Cache κ ρ)) (f : Callable σ κ ε ρ) (a : κ) (s : σ) (e : ε) :
    (cached_function cache f a s).1 = .error e
      ↔ (cache.get s).find a = none ∧ (f a s).1 = .error e := by
  cases hfind : (cache.get s).find a with
  | some d =>
    rw [cached_function_of_find_some cache f a s d hfind]
    simp
  | none =>
    rcases hrun : f a s with ⟨o, s₁⟩
    cases o with
    | ok r =>
      rw [cached_function_of_ok cache f a s r s₁ hfind hrun]
      simp
    | error e₂ =>
      rw [cached_function_of_error cache f a s e₂ s₁ hfind hrun]
      simp

/-- After a call returned `r`, the next call with the same argument returns `r` and leaves the
state, whatever callable it is made for. -/
theorem hit_after_return {σ κ ε ρ : Type} [StrictWeakOrder κ]
    (cache : Static σ (Cache κ ρ)) (f g : Callable σ κ ε ρ) (a : κ) (s : σ) (r : ρ) (s₁ : σ)
    (h : cached_function cache f a s = (.ok r, s₁)) :
    cached_function cache g a s₁ = (.ok r, s₁) := by
  cases hfind : (cache.get s).find a with
  | some d =>
    rw [cached_function_of_find_some cache f a s d hfind] at h
    simp only [Prod.mk.injEq, Except.ok.injEq] at h
    rw [← h.1, ← h.2]
    exact cached_function_of_find_some cache g a s d hfind
  | none =>
    rcases hrun : f a s with ⟨o, s₂⟩
    cases o with
    | ok r₂ =>
      rw [cached_function_of_ok cache f a s r₂ s₂ hfind hrun] at h
      simp only [Prod.mk.injEq, Except.ok.injEq] at h
      have hpresent : (cache.get s₁).find a
          = some ((((cache.get s₂).find a).map Prod.fst).getD a, r) := by
        rw [← h.2, cache.get_set, find_assign_self, h.1]
      exact cached_function_of_find_some cache g a s₁ _ hpresent
    | error e₂ =>
      rw [cached_function_of_error cache f a s e₂ s₂ hfind hrun] at h
      simp at h

/-- The state a call leaves outside its own static cache: on a hit the state of the call, on a
miss the state the run of the callable left, with the own cache set. -/
theorem state_after_call {σ κ ε ρ : Type} [StrictWeakOrder κ]
    (cache : Static σ (Cache κ ρ)) (f : Callable σ κ ε ρ) (a : κ) (s : σ) :
    (∀ e, (cache.get s).find a = some e → cached_function cache f a s = (.ok e.2, s)) ∧
    ((cache.get s).find a = none →
      (cached_function cache f a s).1 = (f a s).1 ∧
      ∃ c, (cached_function cache f a s).2 = cache.set (f a s).2 c) := by
  constructor
  · intro e h
    exact cached_function_of_find_some cache f a s e h
  · intro h
    rcases hrun : f a s with ⟨o, s₁⟩
    cases o with
    | ok r =>
      rw [cached_function_of_ok cache f a s r s₁ h hrun]
      exact ⟨rfl, _, rfl⟩
    | error e =>
      rw [cached_function_of_error cache f a s e s₁ h hrun]
      exact ⟨rfl, cache.get s₁, (cache.set_get s₁).symm⟩

/-- A call for a callable that keeps the entries of the cache keeps them too. -/
theorem keepsEntries_cached_function {σ κ ε ρ : Type} [StrictWeakOrder κ]
    (cache : Static σ (Cache κ ρ)) (f : Callable σ κ ε ρ) (hf : KeepsEntries cache f) :
    KeepsEntries cache (cached_function cache f) := by
  intro a s k e hk
  cases hfind : (cache.get s).find a with
  | some d =>
    rw [cached_function_of_find_some cache f a s d hfind]
    exact hk
  | none =>
    have hkept := hf a s k e hk
    rcases hrun : f a s with ⟨o, s₁⟩
    rw [hrun] at hkept
    cases o with
    | error e₂ =>
      rw [cached_function_of_error cache f a s e₂ s₁ hfind hrun]
      exact hkept
    | ok r =>
      rw [cached_function_of_ok cache f a s r s₁ hfind hrun]
      show (cache.get (cache.set s₁ ((cache.get s₁).assign a r))).find k = some e
      rw [cache.get_set]
      have hne : equiv k a = false := by
        cases heq : equiv k a with
        | false => rfl
        | true =>
          have := findEntries_congr heq (cache.get s).entries
          simp only [Cache.find] at hk hfind
          rw [this, hfind] at hk
          simp at hk
      rw [find_assign_other _ hne]
      exact hkept

/-- A sequence of calls for callables that keep the entries of the cache keeps them too. -/
theorem keepsEntries_runAll {σ κ ε ρ : Type} [StrictWeakOrder κ]
    (cache : Static σ (Cache κ ρ)) (calls : List (Callable σ κ ε ρ × κ))
    (hcalls : ∀ c ∈ calls, KeepsEntries cache c.1) (s : σ) :
    EntriesKept cache s (runAll (calls.map (fun c => cached_function cache c.1 c.2)) s).2 := by
  induction calls generalizing s with
  | nil => intro k e hk; exact hk
  | cons c cs ih =>
    intro k e hk
    simp only [List.map_cons, runAll]
    apply ih (fun d hd => hcalls d (List.mem_cons_of_mem _ hd))
    exact keepsEntries_cached_function cache c.1 (hcalls c (List.mem_cons_self _ _)) c.2 s k e hk

/-- A callable whose runs leave the cache as it was keeps its entries. -/
theorem keepsEntries_of_unchanged {σ κ ε ρ : Type} [StrictWeakOrder κ]
    (cache : Static σ (Cache κ ρ)) (f : Callable σ κ ε ρ)
    (hf : ∀ a s, cache.get (f a s).2 = cache.get s) : KeepsEntries cache f := by
  intro a s k e hk
  rw [hf a s]
  exact hk

/-- The memoized `fib` of the header comment keeps the entries of the cache. -/
theorem fib_keepsEntries {σ : Type} (cache : Static σ (Cache Int Int)) (depth : Nat) :
    KeepsEntries cache (fib cache depth) := by
  induction depth with
  | zero => intro n s k e hk; exact hk
  | succ depth ih =>
    have hstep := keepsEntries_cached_function cache (fib cache depth) ih
    intro n s k e hk
    simp only [fib]
    split
    · exact hk
    · have h₁ := hstep (n - 1) s k e hk
      rcases hrun₁ : cached_function cache (fib cache depth) (n - 1) s with ⟨o₁, s₁⟩
      rw [hrun₁] at h₁
      cases o₁ with
      | error e₁ => exact h₁
      | ok x =>
        have h₂ := hstep (n - 2) s₁ k e h₁
        rcases hrun₂ : cached_function cache (fib cache depth) (n - 2) s₁ with ⟨o₂, s₂⟩
        rw [hrun₂] at h₂
        simp only [hrun₂]
        cases o₂ with
        | error e₂ => exact h₂
        | ok y => exact h₂

/-- A call on instantiation `i` of a registry of caches: decided by the cache of `i`, and
writing to the cache of `i` only. -/
theorem registry_call_facts {ι ε : Type} [DecidableEq ι] {K R : ι → Type}
    [∀ i, StrictWeakOrder (K i)] (i : ι)
    (f : Callable (Registry ι K R) (K i) ε (R i)) (a : K i) (reg : Registry ι K R) :
    (∀ e, (reg i).find a = some e →
      cached_function (Registry.static i) f a reg = (.ok e.2, reg)) ∧
    ((reg i).find a = none →
      (cached_function (Registry.static i) f a reg).1 = (f a reg).1) ∧
    (∀ j, j ≠ i →
      (cached_function (Registry.static i) f a reg).2 j
        = if ((reg i).find a).isSome then reg j else (f a reg).2 j) ∧
    (∀ j, j ≠ i → (f a reg).2 j = reg j →
      (cached_function (Registry.static i) f a reg).2 j = reg j) := by
  have hcall := state_after_call (Registry.static i) f a reg
  have hframe : ∀ j, j ≠ i →
      (cached_function (Registry.static i) f a reg).2 j
        = if ((reg i).find a).isSome then reg j else (f a reg).2 j := by
    intro j hj
    cases hfind : (reg i).find a with
    | some e => rw [hcall.1 e hfind]; rfl
    | none =>
      obtain ⟨c, hc⟩ := (hcall.2 hfind).2
      rw [hc]
      simp [Registry.static, Function.update_noteq hj]
  refine ⟨hcall.1, fun h => (hcall.2 h).1, hframe, ?_⟩
  intro j hj hleft
  rw [hframe j hj, hleft]
  simp

/-- One call for a counting function: a hit returns the stored value and leaves the state; a
miss runs the function, increments the counter and stores the result. -/
theorem counting_call {κ ε ρ : Type} [StrictWeakOrder κ] (f : κ → ρ) (a : κ)
    (s : Counted κ ρ) :
    (∀ e, s.cache.find a = some e →
      cached_function Counted.static (counting f : Callable (Counted κ ρ) κ ε ρ) a s
        = (.ok e.2, s)) ∧
    (s.cache.find a = none →
      cached_function Counted.static (counting f : Callable (Counted κ ρ) κ ε ρ) a s
        = (.ok (f a), ⟨s.cache.assign a (f a), s.counter + 1⟩)) := by
  constructor
  · intro e h
    exact cached_function_of_find_some Counted.static _ a s e h
  · intro h
    exact cached_function_of_ok Counted.static _ a s (f a) ⟨s.cache, s.counter + 1⟩ h rfl

/-- Repeated calls with an argument whose key is present all return the stored value and leave
the state. -/
theorem counting_calls_of_present {κ ε ρ : Type} [StrictWeakOrder κ] (f : κ → ρ) (a : κ)
    (N : Nat) (s : Counted κ ρ) (e : κ × ρ) (h : s.cache.find a = some e) :
    runAll (List.replicate N
        (cached_function Counted.static (counting f : Callable (Counted κ ρ) κ ε ρ) a)) s
      = (List.replicate N (.ok e.2), s) := by
  induction N with
  | zero => rfl
  | succ N ih =>
    simp only [List.replicate_succ, runAll, (counting_call f a s).1 e h, ih]

/-- The keys a cache holds, as a set. -/
theorem mem_keys_of_find {κ ρ : Type} [StrictTotalOrder κ] [DecidableEq κ] (c : Cache κ ρ)
    (a : κ) (e : κ × ρ) (h : c.find a = some e) :
    a ∈ (c.entries.map Prod.fst).toFinset := by
  have he := findEntries_some h
  have hkey : e.1 = a := by
    have := (equiv_iff _ _).1 he.2
    exact StrictTotalOrder.eq_of_incomp _ _ this.1 this.2
  rw [List.mem_toFinset, List.mem_map]
  exact ⟨e, he.1, hkey⟩

theorem not_mem_keys_of_find_none {κ ρ : Type} [StrictWeakOrder κ] [DecidableEq κ]
    (c : Cache κ ρ) (hasc : c.Ascending) (a : κ) (h : c.find a = none) :
    a ∉ (c.entries.map Prod.fst).toFinset := by
  rw [List.mem_toFinset, List.mem_map]
  rintro ⟨e, he, hkey⟩
  have := (findEntries_eq_none_iff a c.entries hasc).1 h e he
  rw [hkey, equiv_refl] at this
  exact absurd this (by simp)

theorem keys_assign_of_find_none {κ ρ : Type} [StrictWeakOrder κ] [DecidableEq κ]
    (c : Cache κ ρ) (a : κ) (v : ρ) (h : c.find a = none) :
    ((c.assign a v).entries.map Prod.fst).toFinset
      = insert a (c.entries.map Prod.fst).toFinset := by
  have hperm := (assignEntries_perm a v c.entries h).map Prod.fst
  simp only [Cache.assign]
  rw [List.toFinset_eq_of_perm _ _ hperm]
  simp

/-- A sequence of calls for one counting function, from a cache in ascending order: the counter
grows by the number of different arguments whose key the cache did not hold. -/
theorem counting_calls_counter {κ ε ρ : Type} [StrictTotalOrder κ] [DecidableEq κ]
    (f : κ → ρ) (as : List κ) (s : Counted κ ρ) (hasc : s.cache.Ascending) :
    (runAll (as.map
        (cached_function Counted.static (counting f : Callable (Counted κ ρ) κ ε ρ))) s).2.counter
      = s.counter + (as.toFinset \ (s.cache.entries.map Prod.fst).toFinset).card := by
  induction as generalizing s with
  | nil => simp [runAll]
  | cons a as ih =>
    simp only [List.map_cons, runAll]
    cases hfind : s.cache.find a with
    | some e =>
      rw [(counting_call f a s).1 e hfind, ih s hasc]
      have hmem := mem_keys_of_find s.cache a e hfind
      rw [List.toFinset_cons, Finset.insert_sdiff_of_mem _ hmem]
    | none =>
      rw [(counting_call f a s).2 hfind,
        ih ⟨s.cache.assign a (f a), s.counter + 1⟩ (ascending_assign a (f a) s.cache hasc)]
      have hnot := not_mem_keys_of_find_none s.cache hasc a hfind
      show s.counter + 1
          + (as.toFinset \ ((s.cache.assign a (f a)).entries.map Prod.fst).toFinset).card
        = s.counter + ((a :: as).toFinset \ (s.cache.entries.map Prod.fst).toFinset).card
      rw [keys_assign_of_find_none s.cache a (f a) hfind, List.toFinset_cons,
        Finset.insert_sdiff_of_not_mem _ hnot]
      have hset : insert a (as.toFinset \ (s.cache.entries.map Prod.fst).toFinset)
          = insert a (as.toFinset \ insert a (s.cache.entries.map Prod.fst).toFinset) := by
        ext x
        simp only [Finset.mem_insert, Finset.mem_sdiff]
        tauto
      rw [hset, Finset.card_insert_of_not_mem (by simp)]
      omega

/-- A call for a callable that, run on `a`, returns `f a` and leaves a cache consistent with
`f`: from a cache consistent with `f` the call returns `f a` and leaves a cache consistent
with `f`. -/
theorem cached_function_computes {σ κ ε ρ : Type} [StrictTotalOrder κ]
    (cache : Static σ (Cache κ ρ)) (f : κ → ρ) (g : Callable σ κ ε ρ) (a : κ) (s : σ)
    (hc : (cache.get s).ConsistentWith f)
    (hg : (g a s).1 = .ok (f a) ∧ (cache.get (g a s).2).ConsistentWith f) :
    (cached_function cache g a s).1 = .ok (f a) ∧
    (cache.get (cached_function cache g a s).2).ConsistentWith f := by
  cases hfind : (cache.get s).find a with
  | some e =>
    rw [cached_function_of_find_some cache _ a s e hfind]
    have he := findEntries_some hfind
    have hkey : e.1 = a := by
      have := (equiv_iff _ _).1 he.2
      exact StrictTotalOrder.eq_of_incomp _ _ this.1 this.2
    refine ⟨?_, hc⟩
    show Except.ok e.2 = Except.ok (f a)
    rw [hc e he.1, hkey]
  | none =>
    rcases hrun : g a s with ⟨o, s₁⟩
    rw [hrun] at hg
    obtain ⟨ho, hc₁⟩ := hg
    simp only at ho hc₁
    subst ho
    rw [cached_function_of_ok cache g a s (f a) s₁ hfind hrun]
    refine ⟨rfl, ?_⟩
    show (cache.get (cache.set s₁ ((cache.get s₁).assign a (f a)))).ConsistentWith f
    rw [cache.get_set]
    intro x hx
    rcases key_of_mem_assignEntries a (f a) _ x hx with hx | hx | ⟨y, _, hy, hx⟩
    · rw [hx]
    · exact hc₁ x hx
    · have := (equiv_iff _ _).1 hy
      rw [hx, StrictTotalOrder.eq_of_incomp _ _ this.1 this.2]

/-- The empty cache is consistent with every function. -/
theorem consistentWith_empty {κ ρ : Type} (f : κ → ρ) :
    (Cache.empty : Cache κ ρ).ConsistentWith f := by
  intro e he
  simp [Cache.empty] at he

/-- With nesting depth above `n`, the memoized `fib` run on `n` from a cache consistent with the
plain `fib` returns the value of the plain `fib` and leaves a cache consistent with it. -/
theorem fib_computes {σ : Type} (cache : Static σ (Cache Int Int)) (depth : Nat) (n : Int)
    (s : σ) (hdepth : n.toNat + 1 ≤ depth) (hs : (cache.get s).ConsistentWith plain_fib) :
    (fib cache depth n s).1 = .ok (plain_fib n) ∧
    (cache.get (fib cache depth n s).2).ConsistentWith plain_fib := by
  induction depth generalizing n s with
  | zero => omega
  | succ depth ih =>
    simp only [fib]
    by_cases hn : n < 2
    · rw [if_pos hn, plain_fib, if_pos hn]
      exact ⟨rfl, hs⟩
    · rw [if_neg hn]
      have h₁ := cached_function_computes cache plain_fib (fib cache depth) (n - 1) s hs
        (ih (n - 1) s (by omega) hs)
      rcases hrun₁ : cached_function cache (fib cache depth) (n - 1) s with ⟨o₁, s₁⟩
      rw [hrun₁] at h₁
      obtain ⟨ho₁, hs₁⟩ := h₁
      simp only at ho₁ hs₁
      subst ho₁
      have h₂ := cached_function_computes cache plain_fib (fib cache depth) (n - 2) s₁ hs₁
        (ih (n - 2) s₁ (by omega) hs₁)
      rcases hrun₂ : cached_function cache (fib cache depth) (n - 2) s₁ with ⟨o₂, s₂⟩
      rw [hrun₂] at h₂
      obtain ⟨ho₂, hs₂⟩ := h₂
      simp only at ho₂ hs₂
      subst ho₂
      simp only [hrun₂]
      refine ⟨?_, hs₂⟩
      rw [plain_fib.eq_1 n, if_neg hn]

/-- In a map in ascending order over totally ordered keys, `find` reports an entry exactly when
the map holds an entry under that very key, and then it reports that entry. -/
theorem find_iff_mem {κ ρ : Type} [StrictTotalOrder κ] (c : Cache κ ρ) (hasc : c.Ascending)
    (a : κ) :
    (∀ e ∈ c.entries, e.1 = a → c.find a = some e) ∧
    (∀ e, c.find a = some e → e ∈ c.entries ∧ e.1 = a) ∧
    ((∀ e ∈ c.entries, e.1 ≠ a) → c.find a = none) := by
  have hsome : ∀ e ∈ c.entries, e.1 = a → c.find a = some e := by
    intro e he hkey
    refine findEntries_of_mem a c.entries hasc e he ?_
    rw [hkey]
    exact equiv_refl a
  refine ⟨hsome, ?_, ?_⟩
  · intro e he
    have h := findEntries_some he
    have := (equiv_iff _ _).1 h.2
    exact ⟨h.1, StrictTotalOrder.eq_of_incomp _ _ this.1 this.2⟩
  · intro hnone
    cases hfind : c.find a with
    | none => rfl
    | some e =>
      have h := findEntries_some hfind
      have := (equiv_iff _ _).1 h.2
      exact absurd (StrictTotalOrder.eq_of_incomp _ _ this.1 this.2) (hnone e h.1)

/-- One call for a function without side effects that agrees on equivalent keys, from a cache
consistent with it: the call returns the value of the function, leaves a cache consistent with
it, and that cache holds the key with that value. -/
theorem pure_call_invariant {σ κ ε ρ : Type} [StrictWeakOrder κ]
    (cache : Static σ (Cache κ ρ)) (f : κ → ρ) (hf : ∀ a b, equiv a b = true → f a = f b)
    (a : κ) (s : σ) (hc : (cache.get s).ConsistentWith f) :
    (cached_function cache (pureCallable f : Callable σ κ ε ρ) a s).1 = .ok (f a) ∧
    (cache.get (cached_function cache (pureCallable f : Callable σ κ ε ρ) a s).2).ConsistentWith
      f ∧
    ∃ k, equiv k a = true ∧
      (cache.get (cached_function cache (pureCallable f : Callable σ κ ε ρ) a s).2).find a
        = some (k, f a) := by
  cases hfind : (cache.get s).find a with
  | some e =>
    rw [cached_function_of_find_some cache _ a s e hfind]
    have he := findEntries_some hfind
    have hval : e.2 = f a := by rw [hc e he.1, hf _ _ he.2]
    refine ⟨?_, hc, e.1, he.2, ?_⟩
    · show Except.ok e.2 = Except.ok (f a)
      rw [hval]
    · show (cache.get s).find a = some (e.1, f a)
      rw [hfind, ← hval]
  | none =>
    rw [cached_function_of_ok cache _ a s (f a) s hfind rfl]
    refine ⟨rfl, ?_, a, equiv_refl a, ?_⟩
    · show (cache.get (cache.set s ((cache.get s).assign a (f a)))).ConsistentWith f
      rw [cache.get_set]
      intro x hx
      rcases key_of_mem_assignEntries a (f a) _ x hx with hx | hx | ⟨y, _, hy, hx⟩
      · rw [hx]
      · exact hc x hx
      · rw [hx]
        exact (hf _ _ hy).symm
    · show (cache.get (cache.set s ((cache.get s).assign a (f a)))).find a = some (a, f a)
      rw [cache.get_set, find_assign_self, hfind]
      rfl

/-- A sequence of calls for one function without side effects that agrees on equivalent keys
keeps the cache consistent with it. -/
theorem pure_calls_invariant {σ κ ε ρ : Type} [StrictWeakOrder κ]
    (cache : Static σ (Cache κ ρ)) (f : κ → ρ) (hf : ∀ a b, equiv a b = true → f a = f b)
    (as : List κ) (s : σ) (hc : (cache.get s).ConsistentWith f) :
    (cache.get (runAll (as.map
        (cached_function cache (pureCallable f : Callable σ κ ε ρ))) s).2).ConsistentWith f := by
  induction as generalizing s with
  | nil => exact hc
  | cons a as ih =>
    simp only [List.map_cons, runAll]
    exact ih _ (pure_call_invariant cache f hf a s hc).2.1

/-- Over a total order every function agrees on equivalent keys. -/
theorem agrees_of_total {κ ρ : Type} [StrictTotalOrder κ] (f : κ → ρ) (a b : κ)
    (h : equiv a b = true) : f a = f b := by
  have := (equiv_iff _ _).1 h
  rw [StrictTotalOrder.eq_of_incomp _ _ this.1 this.2]

/-- A callable on a state with a counter that does to the cache what a callable on the bare
cache does: the calls for the two do the same to the cache and return the same. -/
theorem cached_function_erase {κ ε ρ : Type} [StrictWeakOrder κ]
    (g : Callable (Counted κ ρ) κ ε ρ) (g₀ : Callable (Cache κ ρ) κ ε ρ)
    (hsim : ∀ a s, (g a s).1 = (g₀ a s.cache).1 ∧ (g a s).2.cache = (g₀ a s.cache).2)
    (a : κ) (s : Counted κ ρ) :
    (cached_function Counted.static g a s).1 = (cached_function Static.whole g₀ a s.cache).1 ∧
    (cached_function Counted.static g a s).2.cache
      = (cached_function Static.whole g₀ a s.cache).2 := by
  cases hfind : s.cache.find a with
  | some e =>
    rw [cached_function_of_find_some Counted.static g a s e hfind,
      cached_function_of_find_some Static.whole g₀ a s.cache e hfind]
    exact ⟨rfl, rfl⟩
  | none =>
    have h := hsim a s
    rcases hrun : g a s with ⟨o, s₁⟩
    rcases hrun₀ : g₀ a s.cache with ⟨o₀, c₁⟩
    rw [hrun, hrun₀] at h
    obtain ⟨ho, hc⟩ := h
    simp only at ho hc
    subst ho hc
    cases o with
    | ok r =>
      rw [cached_function_of_ok Counted.static g a s r s₁ hfind hrun,
        cached_function_of_ok Static.whole g₀ a s.cache r s₁.cache hfind hrun₀]
      exact ⟨rfl, rfl⟩
    | error e =>
      rw [cached_function_of_error Counted.static g a s e s₁ hfind hrun,
        cached_function_of_error Static.whole g₀ a s.cache e s₁.cache hfind hrun₀]
      exact ⟨rfl, rfl⟩

/-- The memoized `fib` with the counter of runs returns what the memoized `fib` returns and
leaves the cache it leaves. -/
theorem fib_counting_erase (depth : Nat) (n : Int) (s : Counted Int Int) :
    (fib_counting depth n s).1 = (fib Static.whole depth n s.cache).1 ∧
    (fib_counting depth n s).2.cache = (fib Static.whole depth n s.cache).2 := by
  induction depth generalizing n s with
  | zero => exact ⟨rfl, rfl⟩
  | succ depth ih =>
    simp only [fib_counting, fib]
    by_cases hn : n < 2
    · simp only [if_pos hn]
      exact ⟨trivial, trivial⟩
    · simp only [if_neg hn]
      have h₁ := cached_function_erase (fib_counting depth) (fib Static.whole depth) ih (n - 1)
        { s with counter := s.counter + 1 }
      rcases hrun₁ : cached_function Counted.static (fib_counting depth) (n - 1)
        { s with counter := s.counter + 1 } with ⟨o₁, s₁⟩
      rcases hrun₁₀ : cached_function Static.whole (fib Static.whole depth) (n - 1) s.cache
        with ⟨p₁, c₁⟩
      rw [hrun₁] at h₁
      have hrun₁₀' : cached_function Static.whole (fib Static.whole depth) (n - 1)
          ({ s with counter := s.counter + 1 } : Counted Int Int).cache = (p₁, c₁) := hrun₁₀
      rw [hrun₁₀'] at h₁
      obtain ⟨ho₁, hc₁⟩ := h₁
      simp only at ho₁ hc₁
      subst ho₁ hc₁
      cases o₁ with
      | error e => exact ⟨rfl, rfl⟩
      | ok x =>
        simp only
        have h₂ := cached_function_erase (fib_counting depth) (fib Static.whole depth) ih (n - 2)
          s₁
        rcases hrun₂ : cached_function Counted.static (fib_counting depth) (n - 2) s₁
          with ⟨o₂, s₂⟩
        rcases hrun₂₀ : cached_function Static.whole (fib Static.whole depth) (n - 2) s₁.cache
          with ⟨p₂, c₂⟩
        rw [hrun₂, hrun₂₀] at h₂
        obtain ⟨ho₂, hc₂⟩ := h₂
        simp only at ho₂ hc₂
        subst ho₂ hc₂
        cases o₂ with
        | error e => exact ⟨rfl, rfl⟩
        | ok y => exact ⟨rfl, rfl⟩

/-- Assigning under a key above every key of the map appends the entry. -/
theorem assignEntries_append {κ ρ : Type} [StrictWeakOrder κ] (k : κ) (v : ρ)
    (es : List (κ × ρ)) (h : ∀ e ∈ es, less e.1 k = true) :
    assignEntries k v es = es ++ [(k, v)] := by
  induction es with
  | nil => rfl
  | cons e es ih =>
    have he := h e (List.mem_cons_self _ _)
    simp only [assignEntries, he, if_true, List.cons_append]
    rw [ih (fun d hd => h d (List.mem_cons_of_mem _ hd))]

/-- Storing the plain `fib` of `m` under `m` in the table of the keys below `m` gives the table
of the keys below `m + 1`. -/
theorem fibTable_succ (m : Nat) :
    (fibTable m).assign (m : Int) (plain_fib m) = fibTable (m + 1) := by
  simp only [Cache.assign, fibTable, List.range_succ, List.map_append, List.map_cons,
    List.map_nil]
  rw [assignEntries_append]
  intro e he
  obtain ⟨i, hi, rfl⟩ := List.mem_map.1 he
  have hlt : (i : Int) < (m : Int) := by exact_mod_cast List.mem_range.1 hi
  show decide ((i : Int) < (m : Int)) = true
  simpa using hlt

theorem ascending_fibTable (m : Nat) : (fibTable m).Ascending := by
  induction m with
  | zero => exact ascending_empty
  | succ m ih =>
    rw [← fibTable_succ]
    exact ascending_assign _ _ _ ih

/-- The table of the keys below `m` holds each key below `m` with its plain `fib`, and no other
key. -/
theorem find_fibTable (m : Nat) (k : Int) :
    (0 ≤ k → k < m → (fibTable m).find k = some (k, plain_fib k)) ∧
    (∀ e, (fibTable m).find k = some e → 0 ≤ k ∧ k < m) ∧
    (¬ (0 ≤ k ∧ k < m) → (fibTable m).find k = none) := by
  have hfacts := find_iff_mem (fibTable m) (ascending_fibTable m) k
  have hrange : ∀ e, (fibTable m).find k = some e → 0 ≤ k ∧ k < m := by
    intro e he
    obtain ⟨hmem, hkey⟩ := hfacts.2.1 e he
    obtain ⟨i, hi, rfl⟩ := List.mem_map.1 hmem
    have := List.mem_range.1 hi
    simp only at hkey
    subst hkey
    exact ⟨by positivity, by exact_mod_cast this⟩
  refine ⟨?_, hrange, ?_⟩
  · intro h₀ hk
    apply hfacts.1 (k, plain_fib k)
    · apply List.mem_map.2
      refine ⟨k.toNat, List.mem_range.2 (by omega), ?_⟩
      simp [Int.toNat_of_nonneg h₀]
    · rfl
  · intro hnot
    cases hfind : (fibTable m).find k with
    | none => rfl
    | some e => exact absurd (hrange e hfind) hnot

/-- One direct call of the memoized `fib` on `m + 2` from an empty cache, with nesting depth at
least `m + 2`: the call returns the plain `fib`, leaves the table of the keys below `m + 2` and
runs the body of `fib` `m + 3` times. -/
theorem fib_counting_run (m depth c : Nat) (hdepth : m + 2 ≤ depth) :
    fib_counting depth ((m + 2 : Nat) : Int) ⟨Cache.empty, c⟩
      = (.ok (plain_fib ((m + 2 : Nat) : Int)), ⟨fibTable (m + 2), c + (m + 2) + 1⟩) := by
  induction m generalizing depth c with
  | zero =>
    obtain ⟨d, rfl⟩ : ∃ d, depth = d + 2 := ⟨depth - 2, by omega⟩
    have hrun : fib_counting (d + 2) 2 ⟨Cache.empty, c⟩
        = (.ok 1, ⟨⟨[(0, 0), (1, 1)]⟩, c + 2 + 1⟩) := rfl
    have hfib₀ : plain_fib 0 = 0 := by rw [plain_fib.eq_1]; simp
    have hfib₁ : plain_fib 1 = 1 := by rw [plain_fib.eq_1]; simp
    have hfib : plain_fib 2 = 1 := by rw [plain_fib.eq_1]; simp [hfib₀, hfib₁]
    have htable : fibTable 2 = ⟨[(0, 0), (1, 1)]⟩ := by
      simp [fibTable, List.range_succ, hfib₀, hfib₁]
    simp only [Nat.zero_add, Nat.cast_ofNat, hrun, hfib, htable]
  | succ m ih =>
    obtain ⟨d, rfl⟩ : ∃ d, depth = d + 1 := ⟨depth - 1, by omega⟩
    have hn : ¬ (((m + 1 + 2 : Nat) : Int) < 2) := by omega
    have hn₁ : ((m + 1 + 2 : Nat) : Int) - 1 = ((m + 2 : Nat) : Int) := by omega
    have hn₂ : ((m + 1 + 2 : Nat) : Int) - 2 = ((m + 1 : Nat) : Int) := by omega
    have hfirst : cached_function Counted.static (fib_counting d) ((m + 2 : Nat) : Int)
        ⟨Cache.empty, c + 1⟩
        = (.ok (plain_fib ((m + 2 : Nat) : Int)), ⟨fibTable (m + 3), c + 1 + (m + 2) + 1⟩) := by
      rw [cached_function_of_ok Counted.static (fib_counting d) _ ⟨Cache.empty, c + 1⟩ _ _ rfl
        (ih d (c + 1) (by omega))]
      show (Except.ok (plain_fib ((m + 2 : Nat) : Int)),
          (⟨(fibTable (m + 2)).assign ((m + 2 : Nat) : Int) (plain_fib ((m + 2 : Nat) : Int)),
            c + 1 + (m + 2) + 1⟩ : Counted Int Int)) = _
      rw [fibTable_succ]
    have hsecond : cached_function Counted.static (fib_counting d) ((m + 1 : Nat) : Int)
        ⟨fibTable (m + 3), c + 1 + (m + 2) + 1⟩
        = (.ok (plain_fib ((m + 1 : Nat) : Int)), ⟨fibTable (m + 3), c + 1 + (m + 2) + 1⟩) :=
      cached_function_of_find_some Counted.static (fib_counting d) _ _
        (((m + 1 : Nat) : Int), plain_fib ((m + 1 : Nat) : Int))
        ((find_fibTable (m + 3) ((m + 1 : Nat) : Int)).1 (by omega) (by omega))
    have hfib : plain_fib ((m + 1 + 2 : Nat) : Int)
        = plain_fib ((m + 2 : Nat) : Int) + plain_fib ((m + 1 : Nat) : Int) := by
      rw [plain_fib.eq_1 ((m + 1 + 2 : Nat) : Int), if_neg hn, hn₁, hn₂]
    simp only [fib_counting, if_neg hn, hn₁, hn₂, hfirst, hsecond, hfib]
    have hcount : c + 1 + (m + 2) + 1 = c + (m + 1 + 2) + 1 := by omega
    rw [hcount]

/-! ## The other order of evaluation -/

/-- Assigning twice under the same key is assigning the second value. -/
theorem assignEntries_assignEntries {κ ρ : Type} [StrictWeakOrder κ] (a : κ) (d r : ρ)
    (es : List (κ × ρ)) :
    assignEntries a r (assignEntries a d es) = assignEntries a r es := by
  induction es with
  | nil => simp [assignEntries, StrictWeakOrder.irrefl]
  | cons e es ih =>
    by_cases h₁ : less e.1 a = true
    · simp only [assignEntries, h₁, if_true, ih]
    · by_cases h₂ : less a e.1 = true
      · simp [assignEntries, h₁, h₂, StrictWeakOrder.irrefl]
      · simp [assignEntries, h₁, h₂]

theorem assign_assign {κ ρ : Type} [StrictWeakOrder κ] (c : Cache κ ρ) (a : κ) (d r : ρ) :
    (c.assign a d).assign a r = c.assign a r := by
  simp only [Cache.assign, assignEntries_assignEntries]

/-- The multi-argument overload under the other order is the single-argument code under the
other order run on the tuple of the arguments. -/
theorem cached_function_variadic_operator_first_eq {σ α τ ε ρ : Type} [StrictWeakOrder α]
    [StrictWeakOrder τ] [Inhabited ρ] (cache : Static σ (Cache (α × τ) ρ))
    (f : Callable₂ σ α τ ε ρ) (a : α) (as : τ) (s : σ) :
    cached_function_variadic_operator_first cache f a as s
      = cached_function_operator_first cache (fun p => f p.1 p.2) (a, as) s := by
  simp only [cached_function_variadic_operator_first, cached_function_operator_first]
  cases (cache.get s).find (a, as) with
  | some e => rfl
  | none =>
    rcases hf : f a as (cache.set s ((cache.get s).assign (a, as) default)) with ⟨o, s₁⟩
    cases o <;> simp [hf]

theorem operator_first_of_find_some {σ κ ε ρ : Type} [StrictWeakOrder κ] [Inhabited ρ]
    (cache : Static σ (Cache κ ρ)) (f : Callable σ κ ε ρ) (a : κ) (s : σ) (e : κ × ρ)
    (h : (cache.get s).find a = some e) :
    cached_function_operator_first cache f a s = (.ok e.2, s) := by
  simp [cached_function_operator_first, h]

theorem operator_first_of_ok {σ κ ε ρ : Type} [StrictWeakOrder κ] [Inhabited ρ]
    (cache : Static σ (Cache κ ρ)) (f : Callable σ κ ε ρ) (a : κ) (s : σ) (r : ρ) (s₁ : σ)
    (h : (cache.get s).find a = none)
    (hf : f a (cache.set s ((cache.get s).assign a default)) = (.ok r, s₁)) :
    cached_function_operator_first cache f a s
      = (.ok r, cache.set s₁ ((cache.get s₁).assign a r)) := by
  simp [cached_function_operator_first, h, hf]

theorem operator_first_of_error {σ κ ε ρ : Type} [StrictWeakOrder κ] [Inhabited ρ]
    (cache : Static σ (Cache κ ρ)) (f : Callable σ κ ε ρ) (a : κ) (s : σ) (e : ε) (s₁ : σ)
    (h : (cache.get s).find a = none)
    (hf : f a (cache.set s ((cache.get s).assign a default)) = (.error e, s₁)) :
    cached_function_operator_first cache f a s = (.error e, s₁) := by
  simp [cached_function_operator_first, h, hf]

/-- The two orders of evaluation agree on every call for a callable that returns and does not
depend on the cache: one whose run from a state with another cache has the same outcome and
leaves that other cache. -/
theorem operator_first_eq {σ κ ε ρ : Type} [StrictWeakOrder κ] [Inhabited ρ]
    (cache : Static σ (Cache κ ρ)) (f : Callable σ κ ε ρ)
    (hf : ∀ b t c, f b (cache.set t c) = ((f b t).1, cache.set (f b t).2 c))
    (a : κ) (s : σ) (r : ρ) (hr : (f a s).1 = .ok r) :
    cached_function_operator_first cache f a s = cached_function cache f a s := by
  cases hfind : (cache.get s).find a with
  | some e =>
    rw [operator_first_of_find_some cache f a s e hfind,
      cached_function_of_find_some cache f a s e hfind]
  | none =>
    rcases hrun : f a s with ⟨o, s₁⟩
    rw [hrun] at hr
    simp only at hr
    subst hr
    have hrun₀ : f a (cache.set s ((cache.get s).assign a default))
        = (.ok r, cache.set s₁ ((cache.get s).assign a default)) := by
      rw [hf a s, hrun]
    have hsame : cache.get s₁ = cache.get s := by
      have h₁ := hf a s (cache.get s)
      rw [cache.set_get, hrun] at h₁
      simp only [Prod.mk.injEq, true_and] at h₁
      rw [h₁, cache.get_set]
    rw [operator_first_of_ok cache f a s r _ hfind hrun₀,
      cached_function_of_ok cache f a s r s₁ hfind hrun, cache.get_set, cache.set_set,
      assign_assign, hsame]

/-- Under the other order too, a call for a callable that keeps the entries of the cache keeps
them. -/
theorem keepsEntries_operator_first {σ κ ε ρ : Type} [StrictWeakOrder κ] [Inhabited ρ]
    (cache : Static σ (Cache κ ρ)) (f : Callable σ κ ε ρ) (hf : KeepsEntries cache f) :
    KeepsEntries cache (cached_function_operator_first cache f) := by
  intro a s k e hk
  cases hfind : (cache.get s).find a with
  | some d =>
    rw [operator_first_of_find_some cache f a s d hfind]
    exact hk
  | none =>
    have hne : equiv k a = false := by
      cases heq : equiv k a with
      | false => rfl
      | true =>
        have := findEntries_congr heq (cache.get s).entries
        simp only [Cache.find] at hk hfind
        rw [this, hfind] at hk
        simp at hk
    have hstart : (cache.get (cache.set s ((cache.get s).assign a default))).find k = some e := by
      rw [cache.get_set, find_assign_other _ hne]
      exact hk
    have hkept := hf a (cache.set s ((cache.get s).assign a default)) k e hstart
    rcases hrun : f a (cache.set s ((cache.get s).assign a default)) with ⟨o, s₁⟩
    rw [hrun] at hkept
    cases o with
    | error e₂ =>
      rw [operator_first_of_error cache f a s e₂ s₁ hfind hrun]
      exact hkept
    | ok r =>
      rw [operator_first_of_ok cache f a s r s₁ hfind hrun]
      show (cache.get (cache.set s₁ ((cache.get s₁).assign a r))).find k = some e
      rw [cache.get_set, find_assign_other _ hne]
      exact hkept

/-- Program steps that each keep the entries of the cache keep them when run one after the
other. -/
theorem entriesKept_runAll {σ κ ε ρ : Type} [StrictWeakOrder κ]
    (cache : Static σ (Cache κ ρ)) (steps : List (σ → Outcome σ ε ρ))
    (hsteps : ∀ step ∈ steps, ∀ s, EntriesKept cache s (step s).2) (s : σ) :
    EntriesKept cache s (runAll steps s).2 := by
  induction steps generalizing s with
  | nil => intro k e hk; exact hk
  | cons step steps ih =>
    intro k e hk
    simp only [runAll]
    apply ih (fun d hd => hsteps d (List.mem_cons_of_mem _ hd))
    exact hsteps step (List.mem_cons_self _ _) s k e hk

/-- The unconditional assignment of a miss: whatever entry the run of the callable left under
the key is given the result. -/
theorem find_assign_of_find {κ ρ : Type} [StrictWeakOrder κ] (c : Cache κ ρ) (a k : κ)
    (v r : ρ) (h : c.find a = some (k, v)) : (c.assign a r).find a = some (k, r) := by
  rw [find_assign_self, h]
  rfl

/-! ## The claims -/

/-- C1, cache hit. In every program state whose cache holds the key of the argument with stored
value `v`, `cached_function` returns `v` and leaves the whole program state, the cache included,
exactly as it was, whatever the callable is: the callable is not run, since a run with any side
effect would show in the state. Both overloads. -/
theorem cached_function_hit {σ κ ε ρ σ₂ α τ ε₂ ρ₂ : Type}
    [StrictWeakOrder κ] [StrictWeakOrder α] [StrictWeakOrder τ] :
    (∀ (cache : Static σ (Cache κ ρ)) (f : Callable σ κ ε ρ) (a : κ) (s : σ) (k : κ) (v : ρ),
      (cache.get s).find a = some (k, v) → cached_function cache f a s = (.ok v, s)) ∧
    (∀ (cache : Static σ₂ (Cache (α × τ) ρ₂)) (f : Callable₂ σ₂ α τ ε₂ ρ₂) (a : α) (as : τ)
      (s : σ₂) (k : α × τ) (v : ρ₂),
      (cache.get s).find (a, as) = some (k, v) →
        cached_function_variadic cache f a as s = (.ok v, s)) := by
  constructor
  · intro cache f a s k v h
    exact cached_function_of_find_some cache f a s (k, v) h
  · intro cache f a as s k v h
    rw [cached_function_variadic_eq]
    exact cached_function_of_find_some cache _ (a, as) s (k, v) h

/-- C1 at concrete inputs: with `5 -> 99` stored, the call for `twice` and `5` returns `99`, not
`twice 5`, and the record of invocations stays empty; likewise for `sum` and `(3, 4)`. -/
theorem cached_function_hit_witness :
    cached_function (ε := Unit) Traced.static (recording twice) 5 ⟨⟨[(5, 99)]⟩, []⟩
        = (.ok 99, ⟨⟨[(5, 99)]⟩, []⟩) ∧
      cached_function_variadic (ε := Unit) Traced.static (recording₂ sum) 3 4
          ⟨⟨[((3, 4), 99)]⟩, []⟩
        = (.ok 99, ⟨⟨[((3, 4), 99)]⟩, []⟩) :=
  ⟨(@cached_function_hit (Traced Int Int) Int Unit Int (Traced (Int × Int) Int) Int Int Unit Int
      _ _ _).1 Traced.static (recording twice) 5 ⟨⟨[(5, 99)]⟩, []⟩ 5 99 rfl,
    (@cached_function_hit (Traced Int Int) Int Unit Int (Traced (Int × Int) Int) Int Int Unit Int
      _ _ _).2 Traced.static (recording₂ sum) 3 4 ⟨⟨[((3, 4), 99)]⟩, []⟩ (3, 4) 99 rfl⟩

/-- C2 fails as stated on the documented usage. With the `fib` of the header comment as the
callable and an empty cache, the key `2` is absent and `fib` returns `1` on `2`, yet the cache
after `cached_function(fib, 2)` holds the keys `0`, `1` and `2`: the nested calls made by the
run of `fib` stored `0` and `1`, so the cache is not the cache before plus the single entry
`2 -> 1`, and the key `1` was added. -/
theorem cached_function_miss_counterexample :
    (Cache.empty : Cache Int Int).find 2 = none ∧
    (fib Static.whole 2 2 Cache.empty).1 = .ok 1 ∧
    cached_function Static.whole (fib Static.whole 2) 2 Cache.empty
      = (.ok 1, ⟨[(0, 0), (1, 1), (2, 1)]⟩) ∧
    ¬ (cached_function Static.whole (fib Static.whole 2) 2 Cache.empty).2.entries.Perm
        ((2, 1) :: (Cache.empty : Cache Int Int).entries) ∧
    (Cache.empty : Cache Int Int).find 1 = none ∧
    (cached_function Static.whole (fib Static.whole 2) 2 Cache.empty).2.find 1 = some (1, 1) := by
  refine ⟨rfl, rfl, rfl, ?_, rfl, rfl⟩
  intro h
  have hlen := h.length_eq
  have hrun : (cached_function Static.whole (fib Static.whole 2) 2 Cache.empty).2.entries
      = [(0, 0), (1, 1), (2, 1)] := rfl
  rw [hrun] at hlen
  simp [Cache.empty] at hlen

/-- C2 as amended, cache miss. In every program state whose cache does not hold the key of the
argument, if the callable returns `r` from that state, leaving state `s₁`, then
`cached_function` returns `r` and leaves `s₁` with `r` assigned under the key in its cache: the
callable is run exactly once, on exactly the arguments and from exactly the state of the call.
The cache afterwards is the cache as that run left it with the key mapped to `r`; every
non-equivalent key is looked up as in the cache the run left. When the run of the callable left
the cache as it was before the call, the cache afterwards is the cache before plus the single
entry from the key to `r`. Both overloads. -/
theorem cached_function_miss {σ κ ε ρ σ₂ α τ ε₂ ρ₂ : Type}
    [StrictWeakOrder κ] [StrictWeakOrder α] [StrictWeakOrder τ] :
    (∀ (cache : Static σ (Cache κ ρ)) (f : Callable σ κ ε ρ) (a : κ) (s : σ) (r : ρ) (s₁ : σ),
      (cache.get s).find a = none → f a s = (.ok r, s₁) →
      cached_function cache f a s = (.ok r, cache.set s₁ ((cache.get s₁).assign a r)) ∧
      cache.get (cached_function cache f a s).2 = (cache.get s₁).assign a r ∧
      (∃ k, equiv k a = true ∧
        (cache.get (cached_function cache f a s).2).find a = some (k, r)) ∧
      (∀ k, equiv k a = false →
        (cache.get (cached_function cache f a s).2).find k = (cache.get s₁).find k) ∧
      (cache.get s₁ = cache.get s →
        (cache.get (cached_function cache f a s).2).entries.Perm
          ((a, r) :: (cache.get s).entries) ∧
        (cache.get (cached_function cache f a s).2).find a = some (a, r) ∧
        ∀ k, equiv k a = false →
          (cache.get (cached_function cache f a s).2).find k = (cache.get s).find k)) ∧
    (∀ (cache : Static σ₂ (Cache (α × τ) ρ₂)) (f : Callable₂ σ₂ α τ ε₂ ρ₂) (a : α) (as : τ)
      (s : σ₂) (r : ρ₂) (s₁ : σ₂),
      (cache.get s).find (a, as) = none → f a as s = (.ok r, s₁) →
      cached_function_variadic cache f a as s
        = (.ok r, cache.set s₁ ((cache.get s₁).assign (a, as) r)) ∧
      cache.get (cached_function_variadic cache f a as s).2
        = (cache.get s₁).assign (a, as) r ∧
      (∃ k, equiv k (a, as) = true ∧
        (cache.get (cached_function_variadic cache f a as s).2).find (a, as) = some (k, r)) ∧
      (∀ k, equiv k (a, as) = false →
        (cache.get (cached_function_variadic cache f a as s).2).find k
          = (cache.get s₁).find k) ∧
      (cache.get s₁ = cache.get s →
        (cache.get (cached_function_variadic cache f a as s).2).entries.Perm
          (((a, as), r) :: (cache.get s).entries) ∧
        (cache.get (cached_function_variadic cache f a as s).2).find (a, as)
          = some ((a, as), r) ∧
        ∀ k, equiv k (a, as) = false →
          (cache.get (cached_function_variadic cache f a as s).2).find k
            = (cache.get s).find k)) := by
  constructor
  · intro cache f a s r s₁ h hf
    exact miss_ok_facts cache f a s r s₁ h hf
  · intro cache f a as s r s₁ h hf
    rw [cached_function_variadic_eq]
    exact miss_ok_facts cache (fun p => f p.1 p.2) (a, as) s r s₁ h hf

/-- C2 as amended at concrete inputs. For `twice` recorded, `5` and an empty cache: the call
returns `10`, the record of invocations is `[5]` (one run, on `5`), and the cache is the single
entry `5 -> 10`. For the `fib` of the header comment and `2`: the call returns `1` and the cache
is the one the run of `fib` left, `0 -> 0, 1 -> 1`, with `2 -> 1` assigned. -/
theorem cached_function_miss_witness :
    cached_function (ε := Unit) Traced.static (recording twice) 5 ⟨Cache.empty, []⟩
        = (.ok 10, ⟨⟨[(5, 10)]⟩, [5]⟩) ∧
      cached_function Static.whole (fib Static.whole 2) 2 Cache.empty
        = (.ok 1, Cache.assign ⟨[(0, 0), (1, 1)]⟩ 2 1) ∧
      cached_function_variadic (ε := Unit) Traced.static (recording₂ sum) 3 4 ⟨Cache.empty, []⟩
        = (.ok 7, ⟨⟨[((3, 4), 7)]⟩, [(3, 4)]⟩) :=
  ⟨((@cached_function_miss (Traced Int Int) Int Unit Int (Traced (Int × Int) Int) Int Int Unit Int
      _ _ _).1 Traced.static (recording twice) 5 ⟨Cache.empty, []⟩ 10 ⟨Cache.empty, [5]⟩
      rfl rfl).1,
    ((@cached_function_miss (Cache Int Int) Int Unit Int (Traced (Int × Int) Int) Int Int Unit Int
      _ _ _).1 Static.whole (fib Static.whole 2) 2 Cache.empty 1 ⟨[(0, 0), (1, 1)]⟩
      rfl rfl).1,
    ((@cached_function_miss (Traced Int Int) Int Unit Int (Traced (Int × Int) Int) Int Int Unit Int
      _ _ _).2 Traced.static (recording₂ sum) 3 4 ⟨Cache.empty, []⟩ 7 ⟨Cache.empty, [(3, 4)]⟩
      rfl rfl).1⟩

/-- C3, result correctness. For every function `f` without side effects (pure and total) over
totally ordered keys, and every finite sequence of calls `cached_function(f, a_1)`, ...,
`cached_function(f, a_n)` on one instantiation starting from an empty cache, the outcomes of
the calls are, in order, the returned values `f(a_1)`, ..., `f(a_n)`. Both overloads. -/
theorem cached_function_results {σ κ ε ρ σ₂ α τ ε₂ ρ₂ : Type}
    [StrictTotalOrder κ] [StrictTotalOrder α] [StrictTotalOrder τ] :
    (∀ (cache : Static σ (Cache κ ρ)) (f : κ → ρ) (as : List κ) (s : σ),
      cache.get s = Cache.empty →
      (runAll (as.map (cached_function cache (pureCallable f : Callable σ κ ε ρ))) s).1
        = as.map (fun a => Except.ok (f a))) ∧
    (∀ (cache : Static σ₂ (Cache (α × τ) ρ₂)) (f : α → τ → ρ₂) (as : List (α × τ)) (s : σ₂),
      cache.get s = Cache.empty →
      (runAll (as.map (fun p => cached_function_variadic cache
          (pureCallable₂ f : Callable₂ σ₂ α τ ε₂ ρ₂) p.1 p.2)) s).1
        = as.map (fun p => Except.ok (f p.1 p.2))) := by
  constructor
  · intro cache f as s hs
    apply pure_calls_results
    rw [hs]
    intro e he
    simp [Cache.empty] at he
  · intro cache f as s hs
    rw [variadic_steps_eq]
    apply pure_calls_results cache (fun p => f p.1 p.2)
    rw [hs]
    intro e he
    simp [Cache.empty] at he

/-- C3 at concrete inputs: from an empty cache the calls for `twice` with `5, 5, 6` return
`10, 10, 12`, and the calls for `sum` with `(3, 4), (4, 3), (3, 4)` return `7, 7, 7`. -/
theorem cached_function_results_witness :
    (runAll ([5, 5, 6].map (cached_function Static.whole
        (pureCallable twice : Callable (Cache Int Int) Int Unit Int))) Cache.empty).1
      = [.ok 10, .ok 10, .ok 12] ∧
    (runAll ([(3, 4), (4, 3), (3, 4)].map (fun p => cached_function_variadic Static.whole
        (pureCallable₂ sum : Callable₂ (Cache (Int × Int) Int) Int Int Unit Int) p.1 p.2))
        Cache.empty).1
      = [.ok 7, .ok 7, .ok 7] :=
  ⟨(@cached_function_results (Cache Int Int) Int Unit Int (Cache (Int × Int) Int) Int Int Unit Int
      _ _ _).1 Static.whole twice [5, 5, 6] Cache.empty rfl,
    (@cached_function_results (Cache Int Int) Int Unit Int (Cache (Int × Int) Int) Int Int Unit Int
      _ _ _).2 Static.whole sum [(3, 4), (4, 3), (3, 4)] Cache.empty rfl⟩

/-- C4, memoization correctness. Take any sequence of calls on one instantiation, each for a
function without side effects that records its argument when it runs, from any program state.
For every argument `a`, a later call with `a` returns what an earlier call with `a` returned
(so the second and every later call return the result of the first), and across the whole
sequence at most one run has an argument equivalent to `a`: no function is run twice with `a`.
Both overloads. -/
theorem cached_function_memoizes {κ ε ρ α τ ε₂ ρ₂ : Type}
    [StrictWeakOrder κ] [StrictWeakOrder α] [StrictWeakOrder τ] :
    (∀ (calls : List ((κ → ρ) × κ)) (s : Traced κ ρ) (a : κ),
      (∀ i j : Nat, i < j →
        (calls[i]?).map Prod.snd = some a → (calls[j]?).map Prod.snd = some a →
        (runAll (calls.map (fun c => cached_function Traced.static
            (recording c.1 : Callable (Traced κ ρ) κ ε ρ) c.2)) s).1[j]?
          = (runAll (calls.map (fun c => cached_function Traced.static
            (recording c.1 : Callable (Traced κ ρ) κ ε ρ) c.2)) s).1[i]?) ∧
      (runAll (calls.map (fun c => cached_function Traced.static
          (recording c.1 : Callable (Traced κ ρ) κ ε ρ) c.2)) s).2.invoked.countP
            (fun b => equiv b a)
        ≤ s.invoked.countP (fun b => equiv b a) + 1) ∧
    (∀ (calls : List ((α → τ → ρ₂) × (α × τ))) (s : Traced (α × τ) ρ₂) (a : α × τ),
      (∀ i j : Nat, i < j →
        (calls[i]?).map Prod.snd = some a → (calls[j]?).map Prod.snd = some a →
        (runAll (calls.map (fun c => cached_function_variadic Traced.static
            (recording₂ c.1 : Callable₂ (Traced (α × τ) ρ₂) α τ ε₂ ρ₂) c.2.1 c.2.2)) s).1[j]?
          = (runAll (calls.map (fun c => cached_function_variadic Traced.static
            (recording₂ c.1 : Callable₂ (Traced (α × τ) ρ₂) α τ ε₂ ρ₂) c.2.1 c.2.2)) s).1[i]?) ∧
      (runAll (calls.map (fun c => cached_function_variadic Traced.static
          (recording₂ c.1 : Callable₂ (Traced (α × τ) ρ₂) α τ ε₂ ρ₂) c.2.1 c.2.2))
            s).2.invoked.countP (fun b => equiv b a)
        ≤ s.invoked.countP (fun b => equiv b a) + 1) := by
  constructor
  · intro calls s a
    exact ⟨fun i j hij hi hj => recorded_calls_agree a calls s i j hij hi hj,
      recorded_calls_count a calls s⟩
  · intro calls s a
    rw [recorded_steps_eq]
    refine ⟨fun i j hij hi hj => recorded_calls_agree a _ s i j hij ?_ ?_,
      recorded_calls_count a _ s⟩
    · rw [List.getElem?_map, Option.map_map]
      exact hi
    · rw [List.getElem?_map, Option.map_map]
      exact hj

/-- C4 at concrete inputs: in the calls for `twice` with `5, 6, 5` from an empty cache and an
empty record, the third call returns what the first returned and at most one run has the
argument `5`; the run itself returns `10, 12, 10` and records `[5, 6]`. Likewise for `sum`. -/
theorem cached_function_memoizes_witness :
    ((runAll ([(twice, 5), (twice, 6), (twice, 5)].map (fun c => cached_function Traced.static
          (recording c.1 : Callable (Traced Int Int) Int Unit Int) c.2)) ⟨Cache.empty, []⟩).1[2]?
        = (runAll ([(twice, 5), (twice, 6), (twice, 5)].map (fun c => cached_function
          Traced.static (recording c.1 : Callable (Traced Int Int) Int Unit Int) c.2))
            ⟨Cache.empty, []⟩).1[0]?) ∧
      ((runAll ([(sum, (3, 4)), (sum, (3, 4))].map (fun c => cached_function_variadic
          Traced.static (recording₂ c.1 : Callable₂ (Traced (Int × Int) Int) Int Int Unit Int)
            c.2.1 c.2.2)) ⟨Cache.empty, []⟩).2.invoked.countP (fun b => equiv b (3, 4))
        ≤ ([] : List (Int × Int)).countP (fun b => equiv b (3, 4)) + 1) ∧
      runAll ([(twice, 5), (twice, 6), (twice, 5)].map (fun c => cached_function Traced.static
          (recording c.1 : Callable (Traced Int Int) Int Unit Int) c.2)) ⟨Cache.empty, []⟩
        = ([.ok 10, .ok 12, .ok 10], ⟨⟨[(5, 10), (6, 12)]⟩, [5, 6]⟩) :=
  ⟨((@cached_function_memoizes Int Unit Int Int Int Unit Int _ _ _).1
      [(twice, 5), (twice, 6), (twice, 5)] ⟨Cache.empty, []⟩ 5).1 0 2 (by decide) rfl rfl,
    ((@cached_function_memoizes Int Unit Int Int Int Unit Int _ _ _).2
      [(sum, (3, 4)), (sum, (3, 4))] ⟨Cache.empty, []⟩ (3, 4)).2,
    rfl⟩

/-- C6, failure pass-through. A call of `cached_function` throws `e` if and only if the key of
the argument is absent from the cache and the callable, run on the argument from the state of
the call, throws `e`: every failure is the one the callable raised, unchanged, and a call whose
key is present does not fail, whatever the callable would do. Both overloads. -/
theorem cached_function_fails_iff {σ κ ε ρ σ₂ α τ ε₂ ρ₂ : Type}
    [StrictWeakOrder κ] [StrictWeakOrder α] [StrictWeakOrder τ] :
    (∀ (cache : Static σ (Cache κ ρ)) (f : Callable σ κ ε ρ) (a : κ) (s : σ) (e : ε),
      ((cached_function cache f a s).1 = .error e
        ↔ (cache.get s).find a = none ∧ (f a s).1 = .error e)) ∧
    (∀ (cache : Static σ₂ (Cache (α × τ) ρ₂)) (f : Callable₂ σ₂ α τ ε₂ ρ₂) (a : α) (as : τ)
      (s : σ₂) (e : ε₂),
      ((cached_function_variadic cache f a as s).1 = .error e
        ↔ (cache.get s).find (a, as) = none ∧ (f a as s).1 = .error e)) := by
  constructor
  · intro cache f a s e
    exact error_iff cache f a s e
  · intro cache f a as s e
    rw [cached_function_variadic_eq]
    exact error_iff cache (fun p => f p.1 p.2) (a, as) s e

/-- C6 at concrete inputs: the call for a callable that throws `7` fails with `7` on an empty
cache, since the key is absent and the callable throws `7`. -/
theorem cached_function_fails_iff_witness :
    (cached_function Traced.static (recordingThrow 7 : Callable (Traced Int Int) Int Nat Int) 5
        ⟨Cache.empty, []⟩).1 = .error 7 :=
  ((@cached_function_fails_iff (Traced Int Int) Int Nat Int (Traced (Int × Int) Int) Int Int Nat
    Int _ _ _).1 Traced.static (recordingThrow 7) 5 ⟨Cache.empty, []⟩ 7).2 ⟨rfl, rfl⟩

/-- C7, one cache for all callables of an instantiation. After `cached_function(f, a)` has
returned `r`, leaving state `s₁`, the call `cached_function(g, a)` from `s₁` returns `r` and
leaves `s₁` unchanged for every callable `g` of the same type: `g` is not run and the result
does not depend on it. Both overloads. -/
theorem cached_function_shared_by_signature {σ κ ε ρ σ₂ α τ ε₂ ρ₂ : Type}
    [StrictWeakOrder κ] [StrictWeakOrder α] [StrictWeakOrder τ] :
    (∀ (cache : Static σ (Cache κ ρ)) (f g : Callable σ κ ε ρ) (a : κ) (s : σ) (r : ρ)
      (s₁ : σ),
      cached_function cache f a s = (.ok r, s₁) → cached_function cache g a s₁ = (.ok r, s₁)) ∧
    (∀ (cache : Static σ₂ (Cache (α × τ) ρ₂)) (f g : Callable₂ σ₂ α τ ε₂ ρ₂) (a : α) (as : τ)
      (s : σ₂) (r : ρ₂) (s₁ : σ₂),
      cached_function_variadic cache f a as s = (.ok r, s₁) →
        cached_function_variadic cache g a as s₁ = (.ok r, s₁)) := by
  constructor
  · intro cache f g a s r s₁ h
    exact hit_after_return cache f g a s r s₁ h
  · intro cache f g a as s r s₁ h
    rw [cached_function_variadic_eq] at h ⊢
    exact hit_after_return cache _ _ (a, as) s r s₁ h

/-- C7 at concrete inputs: after the call for `twice` with `5` returned `10`, the call for the
function `n + 100` with `5` returns `10`, not `105`, and records no run; likewise after the
call for `sum` with `(3, 4)` returned `7`, the call for the product returns `7`. -/
theorem cached_function_shared_by_signature_witness :
    cached_function Traced.static
        (recording (fun n => n + 100) : Callable (Traced Int Int) Int Unit Int) 5
        ⟨⟨[(5, 10)]⟩, [5]⟩
      = (.ok 10, ⟨⟨[(5, 10)]⟩, [5]⟩) ∧
    cached_function_variadic Traced.static
        (recording₂ (fun a b => a * b) : Callable₂ (Traced (Int × Int) Int) Int Int Unit Int) 3 4
        ⟨⟨[((3, 4), 7)]⟩, [(3, 4)]⟩
      = (.ok 7, ⟨⟨[((3, 4), 7)]⟩, [(3, 4)]⟩) :=
  ⟨(@cached_function_shared_by_signature (Traced Int Int) Int Unit Int (Traced (Int × Int) Int)
      Int Int Unit Int _ _ _).1 Traced.static (recording twice) (recording (fun n => n + 100)) 5
      ⟨Cache.empty, []⟩ 10 ⟨⟨[(5, 10)]⟩, [5]⟩ rfl,
    (@cached_function_shared_by_signature (Traced Int Int) Int Unit Int (Traced (Int × Int) Int)
      Int Int Unit Int _ _ _).2 Traced.static (recording₂ sum) (recording₂ (fun a b => a * b))
      3 4 ⟨Cache.empty, []⟩ 7 ⟨⟨[((3, 4), 7)]⟩, [(3, 4)]⟩ rfl⟩

/-- C8, per-signature cache isolation. With the static caches as a registry indexed by
instantiation, a call on instantiation `i` is decided by the cache of `i` alone: it is a hit
exactly on an entry of that cache, and with the key absent there the callable is run whatever
the other caches hold. Its only write is to the cache of `i`: the cache of every other
instantiation `j` is, after the call, the one of the state of the call (hit) or of the state
the run of the callable left (miss), hence unchanged whenever the run of the callable itself
leaves it alone. Both overloads. -/
theorem cached_function_isolated {ι ε ε₂ : Type} [DecidableEq ι] {K R A T R₂ : ι → Type}
    [∀ i, StrictWeakOrder (K i)] [∀ i, StrictWeakOrder (A i)] [∀ i, StrictWeakOrder (T i)] :
    (∀ (i : ι) (f : Callable (Registry ι K R) (K i) ε (R i)) (a : K i) (reg : Registry ι K R),
      (∀ e, (reg i).find a = some e →
        cached_function (Registry.static i) f a reg = (.ok e.2, reg)) ∧
      ((reg i).find a = none →
        (cached_function (Registry.static i) f a reg).1 = (f a reg).1) ∧
      (∀ j, j ≠ i →
        (cached_function (Registry.static i) f a reg).2 j
          = if ((reg i).find a).isSome then reg j else (f a reg).2 j) ∧
      (∀ j, j ≠ i → (f a reg).2 j = reg j →
        (cached_function (Registry.static i) f a reg).2 j = reg j)) ∧
    (∀ (i : ι) (f : Callable₂ (Registry ι (fun i => A i × T i) R₂) (A i) (T i) ε₂ (R₂ i))
      (a : A i) (as : T i) (reg : Registry ι (fun i => A i × T i) R₂),
      (∀ e, (reg i).find (a, as) = some e →
        cached_function_variadic (Registry.static i) f a as reg = (.ok e.2, reg)) ∧
      ((reg i).find (a, as) = none →
        (cached_function_variadic (Registry.static i) f a as reg).1 = (f a as reg).1) ∧
      (∀ j, j ≠ i →
        (cached_function_variadic (Registry.static i) f a as reg).2 j
          = if ((reg i).find (a, as)).isSome then reg j else (f a as reg).2 j) ∧
      (∀ j, j ≠ i → (f a as reg).2 j = reg j →
        (cached_function_variadic (Registry.static i) f a as reg).2 j = reg j)) := by
  constructor
  · intro i f a reg
    exact registry_call_facts i f a reg
  · intro i f a as reg
    simp only [cached_function_variadic_eq]
    exact registry_call_facts i (fun p => f p.1 p.2) (a, as) reg

/-- C8 at concrete inputs: two instantiations with `int` keys, the cache of the first holding
`5 -> 99` and the cache of the second empty. The call on the second with `5` for `twice` is a
miss that returns `10`, not `99`, and the cache of the first is unchanged. -/
theorem cached_function_isolated_witness :
    (cached_function (Registry.static false)
        (pureCallable twice : Callable (Registry Bool (fun _ => Int) (fun _ => Int)) Int Unit Int)
        5 (fun b => if b then ⟨[(5, 99)]⟩ else Cache.empty)).1 = .ok 10 ∧
    (cached_function (Registry.static false)
        (pureCallable twice : Callable (Registry Bool (fun _ => Int) (fun _ => Int)) Int Unit Int)
        5 (fun b => if b then ⟨[(5, 99)]⟩ else Cache.empty)).2 true = ⟨[(5, 99)]⟩ :=
  ⟨((@cached_function_isolated Bool Unit Unit _ (fun _ => Int) (fun _ => Int) (fun _ => Int)
      (fun _ => Int) (fun _ => Int) _ _ _).1 false (pureCallable twice) 5
      (fun b => if b then ⟨[(5, 99)]⟩ else Cache.empty)).2.1 rfl,
    ((@cached_function_isolated Bool Unit Unit _ (fun _ => Int) (fun _ => Int) (fun _ => Int)
      (fun _ => Int) (fun _ => Int) _ _ _).1 false (pureCallable twice) 5
      (fun b => if b then ⟨[(5, 99)]⟩ else Cache.empty)).2.2.2 true (by decide) rfl⟩

/-- C9, arity boundary. The two overloads keep separate static caches. A single-argument call
is decided by the single-argument cache alone and keyed by the bare argument: a hit returns the
stored value and leaves the state; a miss runs the callable, assigns its result under the
argument in the single-argument cache, and leaves the tuple cache as the run of the callable
left it; a failure stores nothing. The single-argument call thus neither hits, creates nor
alters an entry of the tuple cache. The multi-argument call does the same on the tuple cache,
keyed by the tuple of all arguments, and leaves the single-argument cache alone. -/
theorem cached_function_arity_boundary {κ ρ α τ ρ₂ ε ε₂ : Type}
    [StrictWeakOrder κ] [StrictWeakOrder α] [StrictWeakOrder τ] :
    (∀ (f : Callable (Overloads κ ρ α τ ρ₂) κ ε ρ) (a : κ) (s : Overloads κ ρ α τ ρ₂),
      (∀ e, s.sole.find a = some e →
        cached_function Overloads.soleStatic f a s = (.ok e.2, s)) ∧
      (∀ r s₁, s.sole.find a = none → f a s = (.ok r, s₁) →
        cached_function Overloads.soleStatic f a s
          = (.ok r, ⟨s₁.sole.assign a r, s₁.tuple⟩) ∧
        ∃ k, (s₁.sole.assign a r).find a = some (k, r)) ∧
      (∀ e s₁, s.sole.find a = none → f a s = (.error e, s₁) →
        cached_function Overloads.soleStatic f a s = (.error e, s₁)) ∧
      (cached_function Overloads.soleStatic f a s).2.tuple
        = if (s.sole.find a).isSome then s.tuple else (f a s).2.tuple) ∧
    (∀ (g : Callable₂ (Overloads κ ρ α τ ρ₂) α τ ε₂ ρ₂) (a : α) (as : τ)
      (s : Overloads κ ρ α τ ρ₂),
      (∀ e, s.tuple.find (a, as) = some e →
        cached_function_variadic Overloads.tupleStatic g a as s = (.ok e.2, s)) ∧
      (∀ r s₁, s.tuple.find (a, as) = none → g a as s = (.ok r, s₁) →
        cached_function_variadic Overloads.tupleStatic g a as s
          = (.ok r, ⟨s₁.sole, s₁.tuple.assign (a, as) r⟩) ∧
        ∃ k, (s₁.tuple.assign (a, as) r).find (a, as) = some (k, r)) ∧
      (∀ e s₁, s.tuple.find (a, as) = none → g a as s = (.error e, s₁) →
        cached_function_variadic Overloads.tupleStatic g a as s = (.error e, s₁)) ∧
      (cached_function_variadic Overloads.tupleStatic g a as s).2.sole
        = if (s.tuple.find (a, as)).isSome then s.sole else (g a as s).2.sole) := by
  constructor
  · intro f a s
    refine ⟨fun e h => cached_function_of_find_some Overloads.soleStatic f a s e h, ?_, ?_, ?_⟩
    · intro r s₁ h hf
      exact ⟨cached_function_of_ok Overloads.soleStatic f a s r s₁ h hf,
        _, find_assign_self s₁.sole a r⟩
    · intro e s₁ h hf
      exact cached_function_of_error Overloads.soleStatic f a s e s₁ h hf
    · cases hfind : s.sole.find a with
      | some e =>
        rw [cached_function_of_find_some Overloads.soleStatic f a s e hfind]
        rfl
      | none =>
        rcases hrun : f a s with ⟨o, s₁⟩
        cases o with
        | ok r =>
          rw [cached_function_of_ok Overloads.soleStatic f a s r s₁ hfind hrun]
          rfl
        | error e =>
          rw [cached_function_of_error Overloads.soleStatic f a s e s₁ hfind hrun]
          rfl
  · intro g a as s
    simp only [cached_function_variadic_eq]
    refine ⟨fun e h => cached_function_of_find_some Overloads.tupleStatic _ (a, as) s e h,
      ?_, ?_, ?_⟩
    · intro r s₁ h hg
      exact ⟨cached_function_of_ok Overloads.tupleStatic (fun p => g p.1 p.2) (a, as) s r s₁ h hg,
        _, find_assign_self s₁.tuple (a, as) r⟩
    · intro e s₁ h hg
      exact cached_function_of_error Overloads.tupleStatic (fun p => g p.1 p.2) (a, as) s e s₁
        h hg
    · cases hfind : s.tuple.find (a, as) with
      | some e =>
        rw [cached_function_of_find_some Overloads.tupleStatic _ (a, as) s e hfind]
        rfl
      | none =>
        rcases hrun : g a as s with ⟨o, s₁⟩
        cases o with
        | ok r =>
          rw [cached_function_of_ok Overloads.tupleStatic (fun p => g p.1 p.2) (a, as) s r s₁
            hfind hrun]
          rfl
        | error e =>
          rw [cached_function_of_error Overloads.tupleStatic (fun p => g p.1 p.2) (a, as) s e
            s₁ hfind hrun]
          rfl

/-- C9 at concrete inputs: with `3 -> 30` in the single-argument cache and `(3, 4) -> 7` in the
tuple cache, the single-argument call for `twice` with `4` is a miss that returns `8` and adds
`4 -> 8` to the single-argument cache only; the multi-argument call for `sum` with `(3, 5)` is
a miss that returns `8` and adds `(3, 5) -> 8` to the tuple cache only. -/
theorem cached_function_arity_boundary_witness :
    cached_function Overloads.soleStatic
        (pureCallable twice : Callable (Overloads Int Int Int Int Int) Int Unit Int) 4
        ⟨⟨[(3, 30)]⟩, ⟨[((3, 4), 7)]⟩⟩
      = (.ok 8, ⟨⟨[(3, 30), (4, 8)]⟩, ⟨[((3, 4), 7)]⟩⟩) ∧
    cached_function_variadic Overloads.tupleStatic
        (pureCallable₂ sum : Callable₂ (Overloads Int Int Int Int Int) Int Int Unit Int) 3 5
        ⟨⟨[(3, 30)]⟩, ⟨[((3, 4), 7)]⟩⟩
      = (.ok 8, ⟨⟨[(3, 30)]⟩, ⟨[((3, 4), 7), ((3, 5), 8)]⟩⟩) :=
  ⟨(((@cached_function_arity_boundary Int Int Int Int Int Unit Unit _ _ _).1
      (pureCallable twice) 4 ⟨⟨[(3, 30)]⟩, ⟨[((3, 4), 7)]⟩⟩).2.1 8
      ⟨⟨[(3, 30)]⟩, ⟨[((3, 4), 7)]⟩⟩ rfl rfl).1,
    (((@cached_function_arity_boundary Int Int Int Int Int Unit Unit _ _ _).2
      (pureCallable₂ sum) 3 5 ⟨⟨[(3, 30)]⟩, ⟨[((3, 4), 7)]⟩⟩).2.1 8
      ⟨⟨[(3, 30)]⟩, ⟨[((3, 4), 7)]⟩⟩ rfl rfl).1⟩

/-- C10 fails as stated: an entry is overwritten. The callable is
`f(n) = { cached_function(twice, n); return 7; }`, a callable whose runs keep the entries of
the cache; the cache is empty and the argument is `5`. With the right operand of line 43
evaluated first, the nested call is a miss that returns `10` and stores `5 -> 10`, the run of
`f` leaves that entry, and the enclosing call overwrites it with `5 -> 7`. With the left
operand first, `cache[argument]` stores `5 -> 0`, the nested call is a hit that returns `0`,
and the enclosing call overwrites the entry with `5 -> 7`. -/
theorem cached_function_write_once_counterexample :
    KeepsEntries Static.whole (storeThenReturn (Static.whole : Static (Cache Int Int) _)) ∧
    (cached_function Static.whole (pureCallable twice : Callable (Cache Int Int) Int Nat Int) 5
          Cache.empty
        = (.ok 10, ⟨[(5, 10)]⟩) ∧
      storeThenReturn Static.whole 5 (Cache.empty : Cache Int Int) = (.ok 7, ⟨[(5, 10)]⟩) ∧
      (storeThenReturn Static.whole 5 (Cache.empty : Cache Int Int)).2.find 5 = some (5, 10) ∧
      cached_function Static.whole (storeThenReturn Static.whole) 5 Cache.empty
        = (.ok 7, ⟨[(5, 7)]⟩) ∧
      (cached_function Static.whole (storeThenReturn Static.whole) 5 Cache.empty).2.find 5
        = some (5, 7)) ∧
    (cached_function_operator_first Static.whole
          (pureCallable twice : Callable (Cache Int Int) Int Nat Int) 5 ⟨[(5, 0)]⟩
        = (.ok 0, ⟨[(5, 0)]⟩) ∧
      storeThenReturn_operator_first Static.whole 5 (⟨[(5, 0)]⟩ : Cache Int Int)
        = (.ok 7, ⟨[(5, 0)]⟩) ∧
      cached_function_operator_first Static.whole (storeThenReturn_operator_first Static.whole) 5
          Cache.empty
        = (.ok 7, ⟨[(5, 7)]⟩)) := by
  refine ⟨?_, ⟨rfl, rfl, rfl, rfl, rfl⟩, rfl, rfl, rfl⟩
  intro a s k e hk
  exact keepsEntries_cached_function Static.whole (pureCallable twice)
    (keepsEntries_of_unchanged Static.whole _ (fun _ _ => rfl)) a s k e hk

/-- C10 as amended, entries present before a call survive it, for both orders of evaluation of
the assignment in lines 43 and 55. Let the callable be one whose runs keep every entry the
cache held when they started (a callable reaches the function-local static cache through calls
of `cached_function` only, and those keep the entries by this very statement). Then for every
program state and argument, whether the call hits, misses or fails, every key that `find`
reports before the call is reported after it with the same stored key and value. Hence over
any sequence of calls made one after the other for such callables, every entry present at the
start is present, unchanged, at the end. Entries are not write-once within a call: on a miss
whose callable returns `r`, whatever entry the run of the callable left under the key of the
argument is given the value `r`. Both overloads. -/
theorem cached_function_write_once {σ κ ε ρ σ₂ α τ ε₂ ρ₂ : Type}
    [StrictWeakOrder κ] [StrictWeakOrder α] [StrictWeakOrder τ] [Inhabited ρ] [Inhabited ρ₂] :
    (∀ (cache : Static σ (Cache κ ρ)) (f : Callable σ κ ε ρ), KeepsEntries cache f →
      ∀ (a : κ) (s : σ) (k : κ) (e : κ × ρ), (cache.get s).find k = some e →
        (cache.get (cached_function cache f a s).2).find k = some e) ∧
    (∀ (cache : Static σ (Cache κ ρ)) (calls : List (Callable σ κ ε ρ × κ)),
      (∀ c ∈ calls, KeepsEntries cache c.1) →
      ∀ (s : σ) (k : κ) (e : κ × ρ), (cache.get s).find k = some e →
        (cache.get (runAll (calls.map (fun c => cached_function cache c.1 c.2)) s).2).find k
          = some e) ∧
    (∀ (cache : Static σ₂ (Cache (α × τ) ρ₂)) (f : Callable₂ σ₂ α τ ε₂ ρ₂),
      KeepsEntries cache (fun p => f p.1 p.2) →
      ∀ (a : α) (as : τ) (s : σ₂) (k : α × τ) (e : (α × τ) × ρ₂),
        (cache.get s).find k = some e →
        (cache.get (cached_function_variadic cache f a as s).2).find k = some e) ∧
    (∀ (cache : Static σ₂ (Cache (α × τ) ρ₂)) (calls : List (Callable₂ σ₂ α τ ε₂ ρ₂ × (α × τ))),
      (∀ c ∈ calls, KeepsEntries cache (fun p => c.1 p.1 p.2)) →
      ∀ (s : σ₂) (k : α × τ) (e : (α × τ) × ρ₂), (cache.get s).find k = some e →
        (cache.get (runAll (calls.map
          (fun c => cached_function_variadic cache c.1 c.2.1 c.2.2)) s).2).find k = some e) ∧
    (∀ (cache : Static σ (Cache κ ρ)) (f : Callable σ κ ε ρ), KeepsEntries cache f →
      ∀ (a : κ) (s : σ) (k : κ) (e : κ × ρ), (cache.get s).find k = some e →
        (cache.get (cached_function_operator_first cache f a s).2).find k = some e) ∧
    (∀ (cache : Static σ (Cache κ ρ)) (calls : List (Callable σ κ ε ρ × κ)),
      (∀ c ∈ calls, KeepsEntries cache c.1) →
      ∀ (s : σ) (k : κ) (e : κ × ρ), (cache.get s).find k = some e →
        (cache.get (runAll (calls.map
          (fun c => cached_function_operator_first cache c.1 c.2)) s).2).find k = some e) ∧
    (∀ (cache : Static σ₂ (Cache (α × τ) ρ₂)) (f : Callable₂ σ₂ α τ ε₂ ρ₂),
      KeepsEntries cache (fun p => f p.1 p.2) →
      ∀ (a : α) (as : τ) (s : σ₂) (k : α × τ) (e : (α × τ) × ρ₂),
        (cache.get s).find k = some e →
        (cache.get (cached_function_variadic_operator_first cache f a as s).2).find k
          = some e) ∧
    (∀ (cache : Static σ₂ (Cache (α × τ) ρ₂)) (calls : List (Callable₂ σ₂ α τ ε₂ ρ₂ × (α × τ))),
      (∀ c ∈ calls, KeepsEntries cache (fun p => c.1 p.1 p.2)) →
      ∀ (s : σ₂) (k : α × τ) (e : (α × τ) × ρ₂), (cache.get s).find k = some e →
        (cache.get (runAll (calls.map
          (fun c => cached_function_variadic_operator_first cache c.1 c.2.1 c.2.2))
            s).2).find k = some e) ∧
    (∀ (cache : Static σ (Cache κ ρ)) (f : Callable σ κ ε ρ) (a : κ) (s : σ) (r : ρ) (s₁ : σ)
      (k : κ) (v : ρ),
      (cache.get s).find a = none → f a s = (.ok r, s₁) →
      (cache.get s₁).find a = some (k, v) →
      (cache.get (cached_function cache f a s).2).find a = some (k, r)) ∧
    (∀ (cache : Static σ₂ (Cache (α × τ) ρ₂)) (f : Callable₂ σ₂ α τ ε₂ ρ₂) (a : α) (as : τ)
      (s : σ₂) (r : ρ₂) (s₁ : σ₂) (k : α × τ) (v : ρ₂),
      (cache.get s).find (a, as) = none → f a as s = (.ok r, s₁) →
      (cache.get s₁).find (a, as) = some (k, v) →
      (cache.get (cached_function_variadic cache f a as s).2).find (a, as) = some (k, r)) ∧
    (∀ (cache : Static σ (Cache κ ρ)) (f : Callable σ κ ε ρ) (a : κ) (s : σ) (r : ρ) (s₁ : σ)
      (k : κ) (v : ρ),
      (cache.get s).find a = none →
      f a (cache.set s ((cache.get s).assign a default)) = (.ok r, s₁) →
      (cache.get s₁).find a = some (k, v) →
      (cache.get (cached_function_operator_first cache f a s).2).find a = some (k, r)) ∧
    (∀ (cache : Static σ₂ (Cache (α × τ) ρ₂)) (f : Callable₂ σ₂ α τ ε₂ ρ₂) (a : α) (as : τ)
      (s : σ₂) (r : ρ₂) (s₁ : σ₂) (k : α × τ) (v : ρ₂),
      (cache.get s).find (a, as) = none →
      f a as (cache.set s ((cache.get s).assign (a, as) default)) = (.ok r, s₁) →
      (cache.get s₁).find (a, as) = some (k, v) →
      (cache.get (cached_function_variadic_operator_first cache f a as s).2).find (a, as)
        = some (k, r)) := by
  refine ⟨?_, ?_, ?_, ?_, ?_, ?_, ?_, ?_, ?_, ?_, ?_, ?_⟩
  · intro cache f hf a s k e hk
    exact keepsEntries_cached_function cache f hf a s k e hk
  · intro cache calls hcalls s k e hk
    exact keepsEntries_runAll cache calls hcalls s k e hk
  · intro cache f hf a as s k e hk
    rw [cached_function_variadic_eq]
    exact keepsEntries_cached_function cache _ hf (a, as) s k e hk
  · intro cache calls hcalls s k e hk
    apply entriesKept_runAll cache _ _ s k e hk
    intro step hstep t
    obtain ⟨c, hc, rfl⟩ := List.mem_map.1 hstep
    intro k₂ e₂ hk₂
    rw [cached_function_variadic_eq]
    exact keepsEntries_cached_function cache _ (hcalls c hc) c.2 t k₂ e₂ hk₂
  · intro cache f hf a s k e hk
    exact keepsEntries_operator_first cache f hf a s k e hk
  · intro cache calls hcalls s k e hk
    apply entriesKept_runAll cache _ _ s k e hk
    intro step hstep t
    obtain ⟨c, hc, rfl⟩ := List.mem_map.1 hstep
    exact keepsEntries_operator_first cache c.1 (hcalls c hc) c.2 t
  · intro cache f hf a as s k e hk
    rw [cached_function_variadic_operator_first_eq]
    exact keepsEntries_operator_first cache _ hf (a, as) s k e hk
  · intro cache calls hcalls s k e hk
    apply entriesKept_runAll cache _ _ s k e hk
    intro step hstep t
    obtain ⟨c, hc, rfl⟩ := List.mem_map.1 hstep
    intro k₂ e₂ hk₂
    rw [cached_function_variadic_operator_first_eq]
    exact keepsEntries_operator_first cache _ (hcalls c hc) c.2 t k₂ e₂ hk₂
  · intro cache f a s r s₁ k v h hf hleft
    rw [cached_function_of_ok cache f a s r s₁ h hf, cache.get_set]
    exact find_assign_of_find _ a k v r hleft
  · intro cache f a as s r s₁ k v h hf hleft
    rw [cached_function_variadic_eq,
      cached_function_of_ok cache (fun p => f p.1 p.2) (a, as) s r s₁ h hf, cache.get_set]
    exact find_assign_of_find _ (a, as) k v r hleft
  · intro cache f a s r s₁ k v h hf hleft
    rw [operator_first_of_ok cache f a s r s₁ h hf, cache.get_set]
    exact find_assign_of_find _ a k v r hleft
  · intro cache f a as s r s₁ k v h hf hleft
    rw [cached_function_variadic_operator_first_eq,
      operator_first_of_ok cache (fun p => f p.1 p.2) (a, as) s r s₁ h hf, cache.get_set]
    exact find_assign_of_find _ (a, as) k v r hleft

/-- C10 as amended at concrete inputs: with `1 -> 1` and `7 -> 70` stored, the call for the
memoized `fib` of the header comment with `3`, a miss whose run makes nested calls, leaves
`7 -> 70` in place, also when the assignment of the call evaluates its left operand first; so
does the call for a callable that throws. And the entry `5 -> 10` that the run of
`f(n) = { cached_function(twice, n); return 7; }` leaves is given the value `7` by the
enclosing call. -/
theorem cached_function_write_once_witness :
    (cached_function Static.whole (fib Static.whole 3) 3 ⟨[(1, 1), (7, 70)]⟩).2.find 7
      = some (7, 70) ∧
    (cached_function Traced.static (recordingThrow 7 : Callable (Traced Int Int) Int Nat Int) 3
      ⟨⟨[(1, 1), (7, 70)]⟩, []⟩).2.cache.find 7 = some (7, 70) ∧
    (cached_function_operator_first Static.whole (fib Static.whole 3) 3
      ⟨[(1, 1), (7, 70)]⟩).2.find 7 = some (7, 70) ∧
    (cached_function Static.whole (storeThenReturn Static.whole) 5
      (Cache.empty : Cache Int Int)).2.find 5 = some (5, 7) :=
  ⟨(@cached_function_write_once (Cache Int Int) Int Unit Int (Cache (Int × Int) Int) Int Int Unit
      Int _ _ _ _ _).1 Static.whole (fib Static.whole 3) (fib_keepsEntries Static.whole 3) 3
      ⟨[(1, 1), (7, 70)]⟩ 7 (7, 70) rfl,
    (@cached_function_write_once (Traced Int Int) Int Nat Int (Cache (Int × Int) Int) Int Int Unit
      Int _ _ _ _ _).1 Traced.static (recordingThrow 7)
      (keepsEntries_of_unchanged Traced.static (recordingThrow 7) (fun _ _ => rfl)) 3
      ⟨⟨[(1, 1), (7, 70)]⟩, []⟩ 7 (7, 70) rfl,
    (@cached_function_write_once (Cache Int Int) Int Unit Int (Cache (Int × Int) Int) Int Int Unit
      Int _ _ _ _ _).2.2.2.2.1 Static.whole (fib Static.whole 3)
      (fib_keepsEntries Static.whole 3) 3 ⟨[(1, 1), (7, 70)]⟩ 7 (7, 70) rfl,
    (@cached_function_write_once (Cache Int Int) Int Nat Int (Cache (Int × Int) Int) Int Int Unit
      Int _ _ _ _ _).2.2.2.2.2.2.2.2.1 Static.whole (storeThenReturn Static.whole) 5 Cache.empty
      7 ⟨[(5, 10)]⟩ 5 10 rfl rfl rfl⟩

/-- C11, side-effect suppression. The callable returns the value of a function and increments
a global counter each time it runs. For every `N >= 1`, `N` consecutive calls with the same
argument, from a state whose cache does not hold its key, return the value `N` times and
increment the counter exactly once. For every finite sequence of calls with the same callable
from an empty cache, over totally ordered keys, the counter grows by the number of distinct
keys in the sequence. For `f(n) = n * 2`, the calls with `5, 5, 6` return `10, 10, 12` and
leave the counter at `1, 1, 2`. -/
theorem cached_function_suppresses_side_effect {κ ε ρ κ₂ ε₂ ρ₂ : Type}
    [StrictWeakOrder κ] [StrictTotalOrder κ₂] [DecidableEq κ₂] :
    (∀ (f : κ → ρ) (a : κ) (N : Nat) (s : Counted κ ρ), 1 ≤ N → s.cache.find a = none →
      (runAll (List.replicate N
          (cached_function Counted.static (counting f : Callable (Counted κ ρ) κ ε ρ) a)) s).1
        = List.replicate N (Except.ok (f a)) ∧
      (runAll (List.replicate N
          (cached_function Counted.static (counting f : Callable (Counted κ ρ) κ ε ρ) a))
            s).2.counter
        = s.counter + 1) ∧
    (∀ (f : κ₂ → ρ₂) (as : List κ₂) (s : Counted κ₂ ρ₂), s.cache = Cache.empty →
      (runAll (as.map (cached_function Counted.static
          (counting f : Callable (Counted κ₂ ρ₂) κ₂ ε₂ ρ₂))) s).2.counter
        = s.counter + as.dedup.length) ∧
    ((runAll ([5, 5, 6].map (cached_function Counted.static
          (counting twice : Callable (Counted Int Int) Int Unit Int))) ⟨Cache.empty, 0⟩).1
        = [.ok 10, .ok 10, .ok 12] ∧
      [(runAll ([5].map (cached_function Counted.static
          (counting twice : Callable (Counted Int Int) Int Unit Int))) ⟨Cache.empty, 0⟩).2.counter,
        (runAll ([5, 5].map (cached_function Counted.static
          (counting twice : Callable (Counted Int Int) Int Unit Int))) ⟨Cache.empty, 0⟩).2.counter,
        (runAll ([5, 5, 6].map (cached_function Counted.static
          (counting twice : Callable (Counted Int Int) Int Unit Int)))
            ⟨Cache.empty, 0⟩).2.counter]
        = [1, 1, 2]) := by
  refine ⟨?_, ?_, rfl, rfl⟩
  · intro f a N s hN hfind
    obtain ⟨M, rfl⟩ : ∃ M, N = M + 1 := ⟨N - 1, by omega⟩
    have hpresent : (s.cache.assign a (f a)).find a = some (a, f a) := by
      rw [find_assign_self, hfind]; rfl
    simp only [List.replicate_succ, runAll, (counting_call f a s).2 hfind,
      counting_calls_of_present f a M ⟨s.cache.assign a (f a), s.counter + 1⟩ (a, f a) hpresent]
    exact ⟨trivial, trivial⟩
  · intro f as s hs
    rw [counting_calls_counter f as s (by rw [hs]; exact ascending_empty), hs]
    simp [Cache.empty, List.card_toFinset]

/-- C11 at concrete inputs: three consecutive calls for `twice` with `5` from an empty cache
return `10` three times and leave the counter at `1`; the calls with `5, 6, 5, 7, 6` from an
empty cache leave the counter at `3`, the number of distinct keys. -/
theorem cached_function_suppresses_side_effect_witness :
    ((runAll (List.replicate 3 (cached_function Counted.static
          (counting twice : Callable (Counted Int Int) Int Unit Int) 5)) ⟨Cache.empty, 0⟩).1
        = [.ok 10, .ok 10, .ok 10] ∧
      (runAll (List.replicate 3 (cached_function Counted.static
          (counting twice : Callable (Counted Int Int) Int Unit Int) 5))
            ⟨Cache.empty, 0⟩).2.counter = 0 + 1) ∧
    (runAll ([5, 6, 5, 7, 6].map (cached_function Counted.static
        (counting twice : Callable (Counted Int Int) Int Unit Int))) ⟨Cache.empty, 0⟩).2.counter
      = 0 + [5, 6, 5, 7, 6].dedup.length :=
  ⟨(@cached_function_suppresses_side_effect Int Unit Int Int Unit Int _ _ _).1 twice 5 3
      ⟨Cache.empty, 0⟩ (by decide) rfl,
    (@cached_function_suppresses_side_effect Int Unit Int Int Unit Int _ _ _).2.1 twice
      [5, 6, 5, 7, 6] ⟨Cache.empty, 0⟩ rfl⟩

/-- C12, the documented usage preserves the meaning of the function. The plain `fib` is total
and satisfies `fib(n) = n` for `n < 2` and `fib(n) = fib(n - 1) + fib(n - 2)` otherwise. For
every integer `n` and every nesting depth above `n`, the memoized `fib` of the header comment,
run on `n` from any state whose cache entries all hold the plain `fib` of their key, and so
also from an empty cache, returns the value of the plain `fib` at `n`: the run terminates
within that depth and does not fail. -/
theorem fib_refines_plain_fib {σ : Type} :
    (∀ n : Int, plain_fib n = if n < 2 then n else plain_fib (n - 1) + plain_fib (n - 2)) ∧
    (∀ (cache : Static σ (Cache Int Int)) (n : Int) (depth : Nat) (s : σ),
      n.toNat + 1 ≤ depth → (cache.get s).ConsistentWith plain_fib →
      (fib cache depth n s).1 = .ok (plain_fib n)) ∧
    (∀ (cache : Static σ (Cache Int Int)) (n : Int) (depth : Nat) (s : σ),
      n.toNat + 1 ≤ depth → cache.get s = Cache.empty →
      (fib cache depth n s).1 = .ok (plain_fib n)) := by
  refine ⟨plain_fib.eq_1, ?_, ?_⟩
  · intro cache n depth s hdepth hs
    exact (fib_computes cache depth n s hdepth hs).1
  · intro cache n depth s hdepth hs
    refine (fib_computes cache depth n s hdepth ?_).1
    rw [hs]
    exact consistentWith_empty plain_fib

/-- C12 at concrete inputs: with nesting depth `10` the memoized `fib` run on `9` returns the
plain `fib` of `9`, from an empty cache and from the cache `2 -> 1, 3 -> 2`, which holds the
plain `fib` of its keys; the run from the empty cache returns `34`. -/
theorem fib_refines_plain_fib_witness :
    (fib Static.whole 10 9 (Cache.empty : Cache Int Int)).1 = .ok (plain_fib 9) ∧
    (fib Static.whole 10 9 (⟨[(2, 1), (3, 2)]⟩ : Cache Int Int)).1 = .ok (plain_fib 9) ∧
    (fib Static.whole 10 9 (Cache.empty : Cache Int Int)).1 = .ok 34 :=
  ⟨(@fib_refines_plain_fib (Cache Int Int)).2.2 Static.whole 9 10 Cache.empty (by decide) rfl,
    (@fib_refines_plain_fib (Cache Int Int)).2.1 Static.whole 9 10 ⟨[(2, 1), (3, 2)]⟩
      (by decide) (by
        intro e he
        change e ∈ [((2 : Int), (1 : Int)), (3, 2)] at he
        have he₂ : e = (2, 1) ∨ e = (3, 2) := by simpa using he
        rcases he₂ with rfl | rfl
        · simp [plain_fib]
        · simp [plain_fib]),
    rfl⟩

/-- C13, the multi-argument key is the ordered tuple. Tuple keys are equivalent exactly when
they are equivalent in every position. Over totally ordered components and a cache in
ascending order, a call with arguments `(a, as)` is a hit, returning the stored value and
leaving the state, exactly on an entry whose key agrees with `(a, as)` in every position; when
no entry does, the call is a miss whose outcome is that of running the callable. The order of
the arguments matters: on an empty cache, after the call with `(a, b)` for `a` different from
`b`, the call with `(b, a)` is a miss that runs the function again. For `g(a, b) = a + b`, the
call with `(3, 4)` returns `7` and runs `g` once. -/
theorem variadic_key_is_ordered_tuple {σ α τ ε ρ β ε₂ ρ₂ : Type}
    [StrictTotalOrder α] [StrictTotalOrder τ] [StrictTotalOrder β] :
    (∀ x y : α × τ, equiv x y = (equiv x.1 y.1 && equiv x.2 y.2)) ∧
    (∀ (cache : Static σ (Cache (α × τ) ρ)) (g : Callable₂ σ α τ ε ρ) (a : α) (as : τ) (s : σ),
      (cache.get s).Ascending →
      (((cache.get s).find (a, as)).isSome
        ↔ ∃ e ∈ (cache.get s).entries, e.1.1 = a ∧ e.1.2 = as) ∧
      (∀ e ∈ (cache.get s).entries, e.1.1 = a → e.1.2 = as →
        cached_function_variadic cache g a as s = (.ok e.2, s)) ∧
      ((∀ e ∈ (cache.get s).entries, ¬ (e.1.1 = a ∧ e.1.2 = as)) →
        (cache.get s).find (a, as) = none ∧
        (cached_function_variadic cache g a as s).1 = (g a as s).1)) ∧
    (∀ (g : β → β → ρ₂) (a b : β), a ≠ b →
      runAll [cached_function_variadic Traced.static
            (recording₂ g : Callable₂ (Traced (β × β) ρ₂) β β ε₂ ρ₂) a b,
          cached_function_variadic Traced.static
            (recording₂ g : Callable₂ (Traced (β × β) ρ₂) β β ε₂ ρ₂) b a]
          ⟨Cache.empty, []⟩
        = ([.ok (g a b), .ok (g b a)],
            ⟨(Cache.empty.assign (a, b) (g a b)).assign (b, a) (g b a), [(a, b), (b, a)]⟩)) ∧
    cached_function_variadic Traced.static
        (recording₂ sum : Callable₂ (Traced (Int × Int) Int) Int Int Unit Int) 3 4
        ⟨Cache.empty, []⟩
      = (.ok 7, ⟨⟨[((3, 4), 7)]⟩, [(3, 4)]⟩) := by
  refine ⟨equiv_tuple, ?_, ?_, rfl⟩
  · intro cache g a as s hasc
    have hfacts := find_iff_mem (cache.get s) hasc (a, as)
    refine ⟨?_, ?_, ?_⟩
    · constructor
      · intro h
        obtain ⟨e, he⟩ := Option.isSome_iff_exists.1 h
        have := hfacts.2.1 e he
        exact ⟨e, this.1, by rw [this.2], by rw [this.2]⟩
      · rintro ⟨e, he, h₁, h₂⟩
        rw [hfacts.1 e he (Prod.ext h₁ h₂)]
        rfl
    · intro e he h₁ h₂
      rw [cached_function_variadic_eq]
      exact cached_function_of_find_some cache _ (a, as) s e (hfacts.1 e he (Prod.ext h₁ h₂))
    · intro hnone
      have hfind : (cache.get s).find (a, as) = none := by
        apply hfacts.2.2
        intro e he hkey
        exact hnone e he ⟨by rw [hkey], by rw [hkey]⟩
      refine ⟨hfind, ?_⟩
      rw [cached_function_variadic_eq]
      exact ((state_after_call cache (fun p => g p.1 p.2) (a, as) s).2 hfind).1
  · intro g a b hab
    have hfirst : cached_function_variadic Traced.static
        (recording₂ g : Callable₂ (Traced (β × β) ρ₂) β β ε₂ ρ₂) a b ⟨Cache.empty, []⟩
        = (.ok (g a b), ⟨Cache.empty.assign (a, b) (g a b), [(a, b)]⟩) := rfl
    have hne : equiv (b, a) (a, b) = false := by
      rw [equiv_tuple]
      simp [equiv_eq_false_of_ne hab]
    have hfind : (Cache.empty.assign (a, b) (g a b) : Cache (β × β) ρ₂).find (b, a) = none := by
      rw [find_assign_other _ hne]
      rfl
    have hsecond : cached_function_variadic Traced.static
        (recording₂ g : Callable₂ (Traced (β × β) ρ₂) β β ε₂ ρ₂) b a
          ⟨Cache.empty.assign (a, b) (g a b), [(a, b)]⟩
        = (.ok (g b a),
            ⟨(Cache.empty.assign (a, b) (g a b)).assign (b, a) (g b a), [(a, b), (b, a)]⟩) := by
      rw [cached_function_variadic_eq]
      exact cached_function_of_ok Traced.static _ (b, a) _ (g b a)
        ⟨Cache.empty.assign (a, b) (g a b), [(a, b), (b, a)]⟩ hfind rfl
    simp only [runAll, hfirst, hsecond]

/-- C13 at concrete inputs: for `g(a, b) = a + b`, after the call with `(3, 4)` on an empty
cache the call with `(4, 3)` is a miss that runs `g` again, so both argument tuples are
recorded; and with `(3, 4) -> 7` stored the call with `(3, 4)` for the product returns `7`. -/
theorem variadic_key_is_ordered_tuple_witness :
    runAll [cached_function_variadic Traced.static
          (recording₂ sum : Callable₂ (Traced (Int × Int) Int) Int Int Unit Int) 3 4,
        cached_function_variadic Traced.static
          (recording₂ sum : Callable₂ (Traced (Int × Int) Int) Int Int Unit Int) 4 3]
        ⟨Cache.empty, []⟩
      = ([.ok 7, .ok 7], ⟨⟨[((3, 4), 7), ((4, 3), 7)]⟩, [(3, 4), (4, 3)]⟩) ∧
    cached_function_variadic Traced.static
        (recording₂ (fun a b => a * b) : Callable₂ (Traced (Int × Int) Int) Int Int Unit Int) 3 4
        ⟨⟨[((3, 4), 7)]⟩, []⟩
      = (.ok 7, ⟨⟨[((3, 4), 7)]⟩, []⟩) :=
  ⟨(@variadic_key_is_ordered_tuple (Traced (Int × Int) Int) Int Int Unit Int Int Unit Int
      _ _ _).2.2.1 sum 3 4 (by decide),
    ((@variadic_key_is_ordered_tuple (Traced (Int × Int) Int) Int Int Unit Int Int Unit Int
      _ _ _).2.1 Traced.static (recording₂ (fun a b => a * b)) 3 4 ⟨⟨[((3, 4), 7)]⟩, []⟩
      (by simp [Cache.Ascending, Traced.static])).2.1 ((3, 4), 7) (by simp [Traced.static])
      rfl rfl⟩

/-- C14, hits are decided by the comparison of the key type only. Over any strict weak order,
if the cache, in ascending order as the ordered map keeps it, holds an entry under key `k`
with value `v`, and neither `a < k` nor `k < a`, then `cached_function` called with `a`
returns `v` and leaves the whole program state, the cache included, exactly as it was, for
every callable: the callable is not run and no entry is added, whether or not `a` equals `k`
and whatever the callable would return on `a`. Both overloads. -/
theorem cached_function_hit_by_equivalence {σ κ ε ρ σ₂ α τ ε₂ ρ₂ : Type}
    [StrictWeakOrder κ] [StrictWeakOrder α] [StrictWeakOrder τ] :
    (∀ (cache : Static σ (Cache κ ρ)) (f : Callable σ κ ε ρ) (a : κ) (s : σ) (k : κ) (v : ρ),
      (cache.get s).Ascending → (k, v) ∈ (cache.get s).entries →
      less a k = false → less k a = false →
      cached_function cache f a s = (.ok v, s)) ∧
    (∀ (cache : Static σ₂ (Cache (α × τ) ρ₂)) (f : Callable₂ σ₂ α τ ε₂ ρ₂) (a : α) (as : τ)
      (s : σ₂) (k : α × τ) (v : ρ₂),
      (cache.get s).Ascending → (k, v) ∈ (cache.get s).entries →
      less (a, as) k = false → less k (a, as) = false →
      cached_function_variadic cache f a as s = (.ok v, s)) := by
  constructor
  · intro cache f a s k v hasc hmem h₁ h₂
    have hfind : (cache.get s).find a = some (k, v) :=
      findEntries_of_mem a _ hasc (k, v) hmem ((equiv_iff a k).2 ⟨h₁, h₂⟩)
    exact cached_function_of_find_some cache f a s (k, v) hfind
  · intro cache f a as s k v hasc hmem h₁ h₂
    have hfind : (cache.get s).find (a, as) = some (k, v) :=
      findEntries_of_mem (a, as) _ hasc (k, v) hmem ((equiv_iff (a, as) k).2 ⟨h₁, h₂⟩)
    rw [cached_function_variadic_eq]
    exact cached_function_of_find_some cache _ (a, as) s (k, v) hfind

/-- C14 at concrete inputs: keys compared by identifier only, the cache holding `70` under the
key with identifier `1` and tag `7`. The call with the different key of identifier `1` and tag
`9`, for the function that returns the tag, returns `70`, not `9`, records no run and leaves
the cache as it was. -/
theorem cached_function_hit_by_equivalence_witness :
    cached_function Traced.static
        (recording (fun k : Tagged => k.tag) : Callable (Traced Tagged Int) Tagged Unit Int)
        ⟨1, 9⟩ ⟨⟨[(⟨1, 7⟩, 70)]⟩, []⟩
      = (.ok 70, ⟨⟨[(⟨1, 7⟩, 70)]⟩, []⟩) ∧
    (⟨1, 9⟩ : Tagged) ≠ ⟨1, 7⟩ :=
  ⟨(@cached_function_hit_by_equivalence (Traced Tagged Int) Tagged Unit Int (Traced (Int × Int) Int)
      Int Int Unit Int _ _ _).1 Traced.static (recording (fun k : Tagged => k.tag)) ⟨1, 9⟩
      ⟨⟨[(⟨1, 7⟩, 70)]⟩, []⟩ ⟨1, 7⟩ 70 (by simp [Cache.Ascending, Traced.static])
      (by simp [Traced.static]) rfl rfl,
    by decide⟩

/-- C15, the cache-consistency invariant. A cache is consistent with a function `f` when every
entry holds, under its key, the value of `f` at that key. Over totally ordered keys, for every
function `f` without side effects, every state whose cache is consistent with `f` and every
argument `a`, `cached_function` returns `f a` and leaves a cache that is consistent with `f`
and holds `f a` under the key `a`. The empty cache is consistent with every function, so the
cache after any sequence of calls for the same `f` from an empty cache is consistent with `f`.
Both overloads. Over a strict weak order the same holds for every `f` that agrees on
equivalent keys. -/
theorem cached_function_consistency {σ κ ε ρ σ₂ α τ ε₂ ρ₂ σ₃ κ₃ ε₃ ρ₃ : Type}
    [StrictTotalOrder κ] [StrictTotalOrder α] [StrictTotalOrder τ] [StrictWeakOrder κ₃] :
    (∀ (cache : Static σ (Cache κ ρ)) (f : κ → ρ) (a : κ) (s : σ),
      (cache.get s).ConsistentWith f →
      (cached_function cache (pureCallable f : Callable σ κ ε ρ) a s).1 = .ok (f a) ∧
      (cache.get (cached_function cache (pureCallable f : Callable σ κ ε ρ) a
        s).2).ConsistentWith f ∧
      (cache.get (cached_function cache (pureCallable f : Callable σ κ ε ρ) a s).2).find a
        = some (a, f a)) ∧
    (∀ (f : κ → ρ), (Cache.empty : Cache κ ρ).ConsistentWith f) ∧
    (∀ (cache : Static σ (Cache κ ρ)) (f : κ → ρ) (as : List κ) (s : σ),
      cache.get s = Cache.empty →
      (cache.get (runAll (as.map
        (cached_function cache (pureCallable f : Callable σ κ ε ρ))) s).2).ConsistentWith f) ∧
    (∀ (cache : Static σ₂ (Cache (α × τ) ρ₂)) (f : α → τ → ρ₂) (a : α) (as : τ) (s : σ₂),
      (cache.get s).ConsistentWith (fun p => f p.1 p.2) →
      (cached_function_variadic cache (pureCallable₂ f : Callable₂ σ₂ α τ ε₂ ρ₂) a as s).1
        = .ok (f a as) ∧
      (cache.get (cached_function_variadic cache (pureCallable₂ f : Callable₂ σ₂ α τ ε₂ ρ₂) a as
        s).2).ConsistentWith (fun p => f p.1 p.2) ∧
      (cache.get (cached_function_variadic cache (pureCallable₂ f : Callable₂ σ₂ α τ ε₂ ρ₂) a as
        s).2).find (a, as) = some ((a, as), f a as)) ∧
    (∀ (cache : Static σ₂ (Cache (α × τ) ρ₂)) (f : α → τ → ρ₂) (calls : List (α × τ)) (s : σ₂),
      cache.get s = Cache.empty →
      (cache.get (runAll (calls.map (fun p => cached_function_variadic cache
        (pureCallable₂ f : Callable₂ σ₂ α τ ε₂ ρ₂) p.1 p.2)) s).2).ConsistentWith
          (fun p => f p.1 p.2)) ∧
    (∀ (cache : Static σ₃ (Cache κ₃ ρ₃)) (f : κ₃ → ρ₃), (∀ a b, equiv a b = true → f a = f b) →
      ∀ (a : κ₃) (s : σ₃), (cache.get s).ConsistentWith f →
      (cached_function cache (pureCallable f : Callable σ₃ κ₃ ε₃ ρ₃) a s).1 = .ok (f a) ∧
      (cache.get (cached_function cache (pureCallable f : Callable σ₃ κ₃ ε₃ ρ₃) a
        s).2).ConsistentWith f ∧
      ∃ k, equiv k a = true ∧
        (cache.get (cached_function cache (pureCallable f : Callable σ₃ κ₃ ε₃ ρ₃) a s).2).find a
          = some (k, f a)) := by
  have hsole : ∀ {σ κ ε ρ : Type} [StrictTotalOrder κ] (cache : Static σ (Cache κ ρ))
      (f : κ → ρ) (a : κ) (s : σ), (cache.get s).ConsistentWith f →
      (cached_function cache (pureCallable f : Callable σ κ ε ρ) a s).1 = .ok (f a) ∧
      (cache.get (cached_function cache (pureCallable f : Callable σ κ ε ρ) a
        s).2).ConsistentWith f ∧
      (cache.get (cached_function cache (pureCallable f : Callable σ κ ε ρ) a s).2).find a
        = some (a, f a) := by
    intro σ κ ε ρ _ cache f a s hc
    obtain ⟨h₁, h₂, k, hk, h₃⟩ := pure_call_invariant (ε := ε) cache f (agrees_of_total f) a s hc
    refine ⟨h₁, h₂, ?_⟩
    have := (equiv_iff _ _).1 hk
    rw [h₃, StrictTotalOrder.eq_of_incomp _ _ this.1 this.2]
  refine ⟨hsole, consistentWith_empty, ?_, ?_, ?_, ?_⟩
  · intro cache f as s hs
    apply pure_calls_invariant cache f (agrees_of_total f)
    rw [hs]
    exact consistentWith_empty f
  · intro cache f a as s hc
    rw [cached_function_variadic_eq]
    exact hsole cache (fun p => f p.1 p.2) (a, as) s hc
  · intro cache f calls s hs
    rw [variadic_steps_eq]
    apply pure_calls_invariant cache (fun p => f p.1 p.2) (agrees_of_total _)
    rw [hs]
    exact consistentWith_empty _
  · intro cache f hf a s hc
    exact pure_call_invariant cache f hf a s hc

/-- C15 at concrete inputs: from the cache `5 -> 10`, consistent with `twice`, the call with `6`
returns `12` and leaves `5 -> 10, 6 -> 12`; and over keys compared by identifier only, for the
function of the identifier, the call with identifier `1` and tag `9` from the cache holding
`2` under identifier `1` and tag `7` returns `2`. -/
theorem cached_function_consistency_witness :
    ((cached_function Static.whole (pureCallable twice : Callable (Cache Int Int) Int Unit Int) 6
        ⟨[(5, 10)]⟩).1 = .ok (twice 6) ∧
      (cached_function Static.whole (pureCallable twice : Callable (Cache Int Int) Int Unit Int) 6
        ⟨[(5, 10)]⟩).2.ConsistentWith twice ∧
      (cached_function Static.whole (pureCallable twice : Callable (Cache Int Int) Int Unit Int) 6
        ⟨[(5, 10)]⟩).2.find 6 = some (6, twice 6)) ∧
    (cached_function Static.whole
        (pureCallable (fun k : Tagged => k.ident * 2) : Callable (Cache Tagged Int) Tagged Unit Int)
        ⟨1, 9⟩ ⟨[(⟨1, 7⟩, 2)]⟩).1 = .ok 2 ∧
    cached_function Static.whole (pureCallable twice : Callable (Cache Int Int) Int Unit Int) 6
        ⟨[(5, 10)]⟩ = (.ok 12, ⟨[(5, 10), (6, 12)]⟩) :=
  ⟨(@cached_function_consistency (Cache Int Int) Int Unit Int (Cache (Int × Int) Int) Int Int Unit
      Int (Cache Tagged Int) Tagged Unit Int _ _ _ _).1 Static.whole twice 6 ⟨[(5, 10)]⟩ (by
        intro e he
        change e ∈ [((5 : Int), (10 : Int))] at he
        rw [List.mem_singleton] at he
        rw [he]
        rfl),
    ((@cached_function_consistency (Cache Int Int) Int Unit Int (Cache (Int × Int) Int) Int Int Unit
      Int (Cache Tagged Int) Tagged Unit Int _ _ _ _).2.2.2.2.2 Static.whole
      (fun k : Tagged => k.ident * 2) (by
        intro a b h
        have := (equiv_iff a b).1 h
        have d₁ : decide (a.ident < b.ident) = false := this.1
        have d₂ : decide (b.ident < a.ident) = false := this.2
        have h₁ : ¬ a.ident < b.ident := by simpa using d₁
        have h₂ : ¬ b.ident < a.ident := by simpa using d₂
        have : a.ident = b.ident := le_antisymm (not_lt.1 h₂) (not_lt.1 h₁)
        simp only [this])
      ⟨1, 9⟩ ⟨[(⟨1, 7⟩, 2)]⟩ (by
        intro e he
        change e ∈ [((⟨1, 7⟩ : Tagged), (2 : Int))] at he
        rw [List.mem_singleton] at he
        rw [he]
        rfl)).1,
    rfl⟩

/-- C16, only the outermost call is uncached in the documented `fib` usage. For every `n >= 2`
and every nesting depth of at least `n`, one direct call of the memoized `fib` on `n` from an
empty cache returns the plain `fib` of `n` and leaves a cache whose entries are exactly the
keys `0, 1, ..., n - 1` in order, each with the plain `fib` of the key: each of these keys is
found with that value, no other key is found, and `n` itself is not stored. With the runs of
the body of `fib` counted, the counter grows by exactly `n + 1`. -/
theorem fib_caches_all_but_outermost (n : Int) (depth c : Nat) (hn : 2 ≤ n)
    (hdepth : n.toNat ≤ depth) :
    (fib Static.whole depth n Cache.empty).1 = .ok (plain_fib n) ∧
    (fib Static.whole depth n Cache.empty).2.entries
      = (List.range n.toNat).map (fun i : Nat => ((i : Int), plain_fib (i : Int))) ∧
    (∀ k : Int, 0 ≤ k → k < n →
      (fib Static.whole depth n Cache.empty).2.find k = some (k, plain_fib k)) ∧
    (∀ k : Int, ¬ (0 ≤ k ∧ k < n) → (fib Static.whole depth n Cache.empty).2.find k = none) ∧
    (fib Static.whole depth n Cache.empty).2.find n = none ∧
    (fib_counting depth n ⟨Cache.empty, c⟩).1 = .ok (plain_fib n) ∧
    (fib_counting depth n ⟨Cache.empty, c⟩).2.cache = (fib Static.whole depth n Cache.empty).2 ∧
    ((fib_counting depth n ⟨Cache.empty, c⟩).2.counter : Int) = c + (n + 1) := by
  obtain ⟨m, rfl⟩ : ∃ m : Nat, n = ((m + 2 : Nat) : Int) := ⟨n.toNat - 2, by omega⟩
  have htoNat : (((m + 2 : Nat) : Int)).toNat = m + 2 := Int.toNat_natCast _
  rw [htoNat] at hdepth ⊢
  have hrun := fib_counting_run m depth c hdepth
  have herase := fib_counting_erase depth ((m + 2 : Nat) : Int) ⟨Cache.empty, c⟩
  rw [hrun] at herase
  have hvalue : (fib Static.whole depth ((m + 2 : Nat) : Int) Cache.empty).1
      = .ok (plain_fib ((m + 2 : Nat) : Int)) := herase.1.symm
  have hcache : (fib Static.whole depth ((m + 2 : Nat) : Int) Cache.empty).2 = fibTable (m + 2) :=
    herase.2.symm
  rw [hrun, hcache]
  refine ⟨hvalue, rfl, ?_, ?_, ?_, rfl, rfl, ?_⟩
  · intro k h₀ hk
    exact (find_fibTable (m + 2) k).1 h₀ (by exact_mod_cast hk)
  · intro k hnot
    exact (find_fibTable (m + 2) k).2.2 (by exact_mod_cast hnot)
  · exact (find_fibTable (m + 2) ((m + 2 : Nat) : Int)).2.2 (by omega)
  · show ((c + (m + 2) + 1 : Nat) : Int) = c + (((m + 2 : Nat) : Int) + 1)
    push_cast
    ring

/-- C16 at concrete inputs: one direct call of the memoized `fib` on `5` from an empty cache, with
nesting depth `5`, returns `5`, leaves exactly the keys `0` to `4` with their `fib`, and runs
the body `6` times. -/
theorem fib_caches_all_but_outermost_witness :
    ((fib Static.whole 5 5 Cache.empty).1 = .ok (plain_fib 5) ∧
      (fib Static.whole 5 5 Cache.empty).2.find 5 = none ∧
      ((fib_counting 5 5 ⟨Cache.empty, 0⟩).2.counter : Int) = ((0 : Nat) : Int) + (5 + 1)) ∧
    fib Static.whole 5 5 Cache.empty = (.ok 5, ⟨[(0, 0), (1, 1), (2, 1), (3, 2), (4, 3)]⟩) ∧
    fib_counting 5 5 ⟨Cache.empty, 0⟩
      = (.ok 5, ⟨⟨[(0, 0), (1, 1), (2, 1), (3, 2), (4, 3)]⟩, 6⟩) :=
  ⟨⟨(fib_caches_all_but_outermost 5 5 0 (by decide) (by decide)).1,
      (fib_caches_all_but_outermost 5 5 0 (by decide) (by decide)).2.2.2.2.1,
      (fib_caches_all_but_outermost 5 5 0 (by decide) (by decide)).2.2.2.2.2.2.2⟩,
    rfl, rfl⟩

end CachedFunction
